import Mathlib

/-!
A verification development for the `ctlog` package (internal/ctlog/ctlog.go)
of the sunlight repository: the sequencer core of an RFC 6962 certificate
transparency log.

Go byte slices are modelled as `List Nat` (each element a byte value),
`int64` indices and sizes as `Nat` (they are non-negative throughout the
code), and `int64` timestamps as `Int`.  Functions of the external
`golang.org/x/mod/sumdb/tlog` library, which the repository only calls,
are modelled from that library's documented contracts; each such
definition says so in its doc comment.  Everything else is translated
directly from `ctlog.go`.
-/

namespace Ctlog

/-- Byte strings: Go `[]byte` as a list of byte values. -/
abbrev Bytes := List Nat

/-- Big-endian fixed-width encoding of `v` in `w` bytes, least significant
byte last, as produced by cryptobyte's `AddUint8`/`AddUint16`/`AddUint24`/
`AddUint64` (values are reduced modulo `2^(8*w)`, which is invisible for
in-range values; cryptobyte instead records an error when a length does
not fit, a case the theorems below exclude by hypothesis). -/
def beBytes : Nat → Nat → Bytes
  | 0, _ => []
  | w + 1, v => beBytes w (v / 256) ++ [v % 256]

/-- Big-endian interpretation of a byte string as a natural number, as read
by cryptobyte's `ReadUint8`/`ReadUint16`/`ReadUint24`/`ReadUint64`. -/
def beNat (bs : Bytes) : Nat :=
  bs.foldl (fun acc b => acc * 256 + b) 0

/-- Go `uint64(t)` for an `int64` timestamp: two's complement reduction. -/
def toU64 (t : Int) : Nat := (t % (2 ^ 64)).toNat

instance {ε α : Type} [DecidableEq ε] [DecidableEq α] : DecidableEq (Except ε α)
  | .error e, .error f => if h : e = f then .isTrue (by rw [h]) else .isFalse (by simp [h])
  | .error _, .ok _ => .isFalse (by simp)
  | .ok _, .error _ => .isFalse (by simp)
  | .ok a, .ok b => if h : a = b then .isTrue (by rw [h]) else .isFalse (by simp [h])

/-- Model of a `cryptobyte.Builder`: an accumulated byte string. -/
structure Builder where
  bytes : Bytes
deriving DecidableEq

def Builder.empty : Builder := ⟨[]⟩

def Builder.addUint8 (b : Builder) (v : Nat) : Builder :=
  ⟨b.bytes ++ [v % 256]⟩

def Builder.addUint64 (b : Builder) (v : Nat) : Builder :=
  ⟨b.bytes ++ beBytes 8 v⟩

def Builder.addBytes (b : Builder) (bs : Bytes) : Builder :=
  ⟨b.bytes ++ bs⟩

/-- `AddUint24LengthPrefixed`: run the continuation on a fresh child
builder, then append the 3-byte length of the child followed by the
child's bytes. -/
def Builder.addUint24LengthPrefixed (b : Builder) (f : Builder → Builder) : Builder :=
  let child := f Builder.empty
  ⟨b.bytes ++ beBytes 3 child.bytes.length ++ child.bytes⟩

/-- `AddUint16LengthPrefixed`, same discipline with a 2-byte length. -/
def Builder.addUint16LengthPrefixed (b : Builder) (f : Builder → Builder) : Builder :=
  let child := f Builder.empty
  ⟨b.bytes ++ beBytes 2 child.bytes.length ++ child.bytes⟩

/-- `logEntry` from ctlog.go: `cert` is either the x509_entry certificate
or the tbs_certificate for precerts. -/
structure logEntry where
  cert : Bytes
  isPrecert : Bool
  issuerKeyHash : Bytes
  preCertificate : Bytes
  precertSigningCert : Bytes
deriving DecidableEq

/-- Well-formedness of a `logEntry`: the Go fields are bytes, the issuer
key hash is a `[32]byte`, and the variable-length fields fit their
cryptobyte length prefixes (cryptobyte panics or errors otherwise). -/
def logEntry.wf (e : logEntry) : Prop :=
  e.cert.length < 2 ^ 24 ∧ e.issuerKeyHash.length = 32 ∧
  e.preCertificate.length < 2 ^ 24 ∧ e.precertSigningCert.length < 2 ^ 24

instance (e : logEntry) : Decidable e.wf := by
  unfold logEntry.wf; infer_instance

/-- `(*logEntry).timestampedEntry` from ctlog.go: appends the RFC 6962
`TimestampedEntry` encoding to the builder. -/
def logEntry.timestampedEntryB (e : logEntry) (b : Builder) (timestamp : Int) : Builder :=
  let b := b.addUint64 (toU64 timestamp)
  let b :=
    if e.isPrecert = false then
      (b.addUint8 0).addUint24LengthPrefixed (fun b => b.addBytes e.cert)
    else
      (((b.addUint8 1).addBytes e.issuerKeyHash).addUint24LengthPrefixed
        (fun b => b.addBytes e.cert))
  b.addUint16LengthPrefixed (fun b => b)

/-- The `TimestampedEntry` bytes on their own. -/
def logEntry.timestampedEntry (e : logEntry) (timestamp : Int) : Bytes :=
  (e.timestampedEntryB Builder.empty timestamp).bytes

/-- `(*logEntry).merkleTreeLeaf` from ctlog.go: RFC 6962 `MerkleTreeLeaf`. -/
def logEntry.merkleTreeLeaf (e : logEntry) (timestamp : Int) : Bytes :=
  (e.timestampedEntryB ((Builder.empty.addUint8 0).addUint8 0) timestamp).bytes

/-- `(*logEntry).tileLeaf` from ctlog.go: the `TileLeaf` record persisted
in data tiles (`TimestampedEntry` plus, for precerts, the u24-prefixed
pre-certificate and precert signing certificate). -/
def logEntry.tileLeaf (e : logEntry) (timestamp : Int) : Bytes :=
  let b := e.timestampedEntryB Builder.empty timestamp
  let b :=
    if e.isPrecert then
      ((b.addUint24LengthPrefixed (fun b => b.addBytes e.preCertificate)).addUint24LengthPrefixed
        (fun b => b.addBytes e.precertSigningCert))
    else b
  b.bytes

/-! SHA-256, used by the log for record hashes, node hashes, the log ID and
the signature digest.  Word arithmetic is over `Nat` reduced modulo `2^32`. -/

def rotr32 (n x : Nat) : Nat := ((x >>> n) ||| (x <<< (32 - n))) % 2 ^ 32

def shaCh (x y z : Nat) : Nat := ((x &&& y) ^^^ ((x ^^^ 0xffffffff) &&& z)) % 2 ^ 32

def shaMaj (x y z : Nat) : Nat := ((x &&& y) ^^^ (x &&& z) ^^^ (y &&& z)) % 2 ^ 32

def shaS0 (x : Nat) : Nat := (rotr32 2 x ^^^ rotr32 13 x ^^^ rotr32 22 x) % 2 ^ 32
def shaS1 (x : Nat) : Nat := (rotr32 6 x ^^^ rotr32 11 x ^^^ rotr32 25 x) % 2 ^ 32
def shas0 (x : Nat) : Nat := (rotr32 7 x ^^^ rotr32 18 x ^^^ (x >>> 3)) % 2 ^ 32
def shas1 (x : Nat) : Nat := (rotr32 17 x ^^^ rotr32 19 x ^^^ (x >>> 10)) % 2 ^ 32

def sha256K : List Nat :=
  [1116352408, 1899447441, 3049323471, 3921009573, 961987163, 1508970993,
   2453635748, 2870763221, 3624381080, 310598401, 607225278, 1426881987,
   1925078388, 2162078206, 2614888103, 3248222580, 3835390401, 4022224774,
   264347078, 604807628, 770255983, 1249150122, 1555081692, 1996064986,
   2554220882, 2821834349, 2952996808, 3210313671, 3336571891, 3584528711,
   113926993, 338241895, 666307205, 773529912, 1294757372, 1396182291,
   1695183700, 1986661051, 2177026350, 2456956037, 2730485921, 2820302411,
   3259730800, 3345764771, 3516065817, 3600352804, 4094571909, 275423344,
   430227734, 506948616, 659060556, 883997877, 958139571, 1322822218,
   1537002063, 1747873779, 1955562222, 2024104815, 2227730452, 2361852424,
   2428436474, 2756734187, 3204031479, 3329325298]

def sha256InitH : List Nat :=
  [1779033703, 3144134277, 1013904242, 2773480762,
   1359893119, 2600822924, 528734635, 1541459225]

/-- Message-schedule extension: append `k` more 32-bit words. -/
def extendW : Nat → List Nat → List Nat
  | 0, w => w
  | k + 1, w =>
    let i := w.length
    let nw := (shas1 (w.getD (i - 2) 0) + w.getD (i - 7) 0 +
               shas0 (w.getD (i - 15) 0) + w.getD (i - 16) 0) % 2 ^ 32
    extendW k (w ++ [nw])

/-- One SHA-256 round on the state `[a, b, c, d, e, f, g, h]`. -/
def shaRound (st : List Nat) (ki : Nat) (wi : Nat) : List Nat :=
  match st with
  | [a, b, c, d, e, f, g, h] =>
    let t1 := (h + shaS1 e + shaCh e f g + ki + wi) % 2 ^ 32
    let t2 := (shaS0 a + shaMaj a b c) % 2 ^ 32
    [(t1 + t2) % 2 ^ 32, a, b, c, (d + t1) % 2 ^ 32, e, f, g]
  | st => st

def compressBlock (hs : List Nat) (block : List Nat) : List Nat :=
  let w := extendW 48 block
  let st := (sha256K.zip w).foldl (fun st kw => shaRound st kw.1 kw.2) hs
  (hs.zip st).map (fun p => (p.1 + p.2) % 2 ^ 32)

/-- Split a list into chunks of `w` elements (fuel-structured so it reduces
in the kernel). -/
def chunkListF (w : Nat) : Nat → List Nat → List (List Nat)
  | 0, _ => []
  | _, [] => []
  | fuel + 1, x :: xs => ((x :: xs).take w) :: chunkListF w fuel ((x :: xs).drop w)

def chunkList (w : Nat) (bs : List Nat) : List (List Nat) := chunkListF w bs.length bs

def toWords (bs : Bytes) : List Nat := (chunkList 4 bs).map beNat

/-- SHA-256 of a byte string. -/
def sha256 (msg : Bytes) : Bytes :=
  let padded := msg ++ [0x80] ++ List.replicate ((55 + 64 - msg.length % 64) % 64) 0 ++
    beBytes 8 (msg.length * 8)
  let blocks := (chunkList 64 padded).map toWords
  ((blocks.foldl compressBlock sha256InitH).map (beBytes 4)).flatten

/-- The kind of `crypto.Signer` public key, as discriminated by the type
switch in `digitallySign`. -/
inductive PubKeyKind where
  | rsa
  | ecdsa
  | other
deriving DecidableEq

/-- Model of Go's `crypto.Signer`: a public-key kind, the DER-encoded
SubjectPublicKeyInfo of the public key (`x509.MarshalPKIXPublicKey`), and
a signing function that receives the SHA-256 digest and may fail. -/
structure Signer where
  pub : PubKeyKind
  pkix : Bytes
  sign : Bytes → Except Unit Bytes

inductive SignError where
  | signFailed
  | unsupportedKeyType
  | lengthOverflow
deriving DecidableEq

/-- `digitallySign` from ctlog.go: hash the message with SHA-256, sign the
digest, and wrap the signature in the TLS `DigitallySigned` encoding
(`u8 hash=4(sha256) || u8 sig=1(rsa)|3(ecdsa) || u16-prefixed sig`).
Unknown key types are an error.  The length guard models cryptobyte's
`b.Bytes()` error when the u16 length prefix overflows. -/
def digitallySign (k : Signer) (msg : Bytes) : Except SignError Bytes :=
  match k.sign (sha256 msg) with
  | .error _ => .error .signFailed
  | .ok sig =>
    match k.pub with
    | .other => .error .unsupportedKeyType
    | .rsa =>
      if sig.length < 2 ^ 16 then
        .ok (((Builder.empty.addUint8 4).addUint8 1).addUint16LengthPrefixed
          (fun b => b.addBytes sig)).bytes
      else .error .lengthOverflow
    | .ecdsa =>
      if sig.length < 2 ^ 16 then
        .ok (((Builder.empty.addUint8 4).addUint8 3).addUint16LengthPrefixed
          (fun b => b.addBytes sig)).bytes
      else .error .lengthOverflow

/-- Outcome of `ReadTileLeaf`: a successful parse, an error return, or the
`panic("unimplemented")` hit for precert entries. -/
inductive ReadTileLeafResult where
  | ok (timestampedEntry cert : Bytes) (timestamp : Nat) (rest : Bytes)
  | invalid
  | panicked
deriving DecidableEq

/-- `ReadTileLeaf` from ctlog.go: reads one `TileLeaf` off the front of a
data tile.  Reads the u64 timestamp and the u8 entry type; for
`x509_entry` (0) reads the u24-prefixed certificate; for `precert_entry`
(1) the Go code panics with "unimplemented"; other types are errors.
Finally reads the u16-prefixed extensions.  Returns the consumed
`TimestampedEntry` prefix, the certificate, the timestamp and the rest. -/
def ReadTileLeaf (tile : Bytes) : ReadTileLeafResult :=
  if 9 ≤ tile.length then
    let timestamp := beNat (tile.take 8)
    let entryType := beNat ((tile.drop 8).take 1)
    let s2 := tile.drop 9
    if entryType = 0 then
      if 3 ≤ s2.length then
        let len := beNat (s2.take 3)
        let s3 := s2.drop 3
        if len ≤ s3.length then
          let cert := s3.take len
          let s4 := s3.drop len
          if 2 ≤ s4.length then
            let elen := beNat (s4.take 2)
            let s5 := s4.drop 2
            if elen ≤ s5.length then
              let rest := s5.drop elen
              .ok (tile.take (tile.length - rest.length)) cert timestamp rest
            else .invalid
          else .invalid
        else .invalid
      else .invalid
    else if entryType = 1 then .panicked
    else .invalid
  else .invalid

/-! ## Model of the golang.org/x/mod/sumdb/tlog library

The repository calls the tiled-Merkle-tree primitives of
`golang.org/x/mod/sumdb/tlog`, an external library whose source is not
part of this repository.  The definitions in this section model those
primitives from the library's documented contracts (hash storage indices,
record/node hashes, tile coordinates and tile data as the concatenated
bottom-row hashes of a tile).  Recursions that Go writes as loops with a
shrinking numeric argument are given explicit fuel so that they are
structural and reduce in the kernel; fuel-irrelevance lemmas below recover
the intended unfolding equations. -/

/-- `tlog.RecordHash`: SHA-256 of `0x00 || data` (RFC 6962 leaf hash). -/
def recordHash (data : Bytes) : Bytes := sha256 (0 :: data)

/-- `tlog.NodeHash`: SHA-256 of `0x01 || left || right`. -/
def nodeHash (l r : Bytes) : Bytes := sha256 (1 :: (l ++ r))

/-- The all-zero hash: the zero value of `tlog.Hash`, also defined by the
library as the hash of the empty tree. -/
def zeroHash : Bytes := List.replicate 32 0

/-- `n + n/2 + n/4 + ...`: the level-0 case of `tlog.StoredHashIndex`
(fuel-structured; `shiSum` runs it with enough fuel). -/
def shiSumF : Nat → Nat → Nat
  | 0, _ => 0
  | f + 1, n => if n = 0 then 0 else n + shiSumF f (n / 2)

def shiSum (n : Nat) : Nat := shiSumF n n

/-- The loop `for l := level; l > 0; l-- { n = 2*n + 1 }` of
`tlog.StoredHashIndex`. -/
def expandLvl : Nat → Nat → Nat
  | 0, n => n
  | l + 1, n => expandLvl l (2 * n + 1)

/-- `tlog.StoredHashIndex`: the index in the linear hash storage at which
the `n`-th hash of the given level is stored. -/
def storedHashIndex (level n : Nat) : Nat := shiSum (expandLvl level n) + level

/-- Number of trailing one bits of `n` (fuel-structured): the number of
completed subtrees consumed when record `n` is appended. -/
def trailingOnesF : Nat → Nat → Nat
  | 0, _ => 0
  | f + 1, n => if n % 2 = 1 then 1 + trailingOnesF f (n / 2) else 0

def trailingOnes (n : Nat) : Nat := trailingOnesF n n

/-- The search loop of `tlog.SplitStoredHashIndex`: advance `n` while
`StoredHashIndex(0, n+1) ≤ index`. -/
def splitLoop : Nat → Nat → Nat → Nat
  | 0, n, _ => n
  | f + 1, n, index => if shiSum (n + 1) ≤ index then splitLoop f (n + 1) index else n

/-- `tlog.SplitStoredHashIndex`: inverse of `StoredHashIndex`. -/
def splitStoredHashIndex (index : Nat) : Nat × Nat :=
  let n := splitLoop index (index / 2) index
  let level := index - shiSum n
  (level, n >>> level)

/-- A tile coordinate, `tlog.Tile`: height `H`, level `L` (`-1` for the
synthetic data-tile level), index `N` within the level, width `W`. -/
structure Tile where
  H : Nat
  L : Int
  N : Nat
  W : Nat
deriving DecidableEq

/-- `tlog.TileForIndex`: the least-width tile of height `h` whose data
suffices to recompute the stored hash at `index`. -/
def tileForIndex (h index : Nat) : Tile :=
  let p := splitStoredHashIndex index
  let tL := p.1 / h
  let lam := p.1 % h
  { H := h, L := (tL : Int), N := (p.2 <<< lam) >>> h,
    W := (p.2 <<< lam) % 2 ^ h + 2 ^ lam }

/-- Backend object keys: the checkpoint key `"sth"` and tile paths
`tile/<h>/<L>/<N>[.p/<W>]` (`W` recorded only for partial tiles), as an
injective structured rendering of `Tile.Path`. -/
inductive TKey where
  | sth
  | tileKey (h : Nat) (l : Int) (n : Nat) (w : Option Nat)
deriving DecidableEq

/-- `Tile.Path`: partial tiles carry their width in the path. -/
def Tile.path (t : Tile) : TKey :=
  .tileKey t.H t.L t.N (if t.W = 2 ^ t.H then none else some t.W)

/-- Errors of the modelled tlog read operations. -/
inductive ReadErr where
  | invalidTile
  | shortData
  | wrongIndex
  | missingTile
deriving DecidableEq

/-- Subtree hash over `2^lam` consecutive bottom-row hashes of a tile,
starting at `start`: the recursive halving the library uses to recompute
an interior hash from tile data. -/
def rowHash (row : List Bytes) : Nat → Nat → Bytes
  | 0, start => row.getD start zeroHash
  | lam + 1, start => nodeHash (rowHash row lam start) (rowHash row lam (start + 2 ^ lam))

/-- `tlog.HashFromTile`: the stored hash at `index`, read from the data of
tile `t` (which must be `TileForIndex(t.H, index)` or a wider version of
it).  Tile data is the concatenation of the tile's bottom-row hashes; an
interior hash is recomputed from its span of bottom-row hashes. -/
def hashFromTile (t : Tile) (data : Bytes) (index : Nat) : Except ReadErr Bytes :=
  if t.H < 1 ∨ 30 < t.H ∨ t.L < 0 ∨ 64 ≤ t.L ∨ t.W < 1 ∨ 2 ^ t.H < t.W then
    .error .invalidTile
  else if data.length < t.W * 32 then .error .shortData
  else
    let t1 := tileForIndex t.H index
    if t1.L = t.L ∧ t1.N = t.N ∧ t1.W ≤ t.W then
      let lam := (splitStoredHashIndex index).1 % t.H
      .ok (rowHash (chunkList 32 data) lam (t1.W - 2 ^ lam))
    else .error .wrongIndex

/-- One step of `tlog.StoredHashesForRecordHash`: combine the record hash
upward with the stored hashes of the completed subtrees to its left,
collecting every newly stored hash.  `k` counts the remaining levels
(`trailingOnes n` at the top call), `i` is the current level. -/
def storedHashesGo (n : Nat) (r : Nat → Except ReadErr Bytes) :
    Nat → Nat → Bytes → List Bytes → Except ReadErr (List Bytes)
  | 0, _, _, acc => .ok acc
  | k + 1, i, h, acc =>
    match r (storedHashIndex i ((n >>> i) - 1)) with
    | .error e => .error e
    | .ok old =>
      let h' := nodeHash old h
      storedHashesGo n r k (i + 1) h' (acc ++ [h'])

/-- `tlog.StoredHashesForRecordHash`. -/
def storedHashesForRecordHash (n : Nat) (h : Bytes) (r : Nat → Except ReadErr Bytes) :
    Except ReadErr (List Bytes) :=
  storedHashesGo n r (trailingOnes n) 0 h [h]

/-- `tlog.StoredHashes`: the hashes stored when record `n` with content
`data` is appended, to be written at `StoredHashIndex(0, n) + i`. -/
def storedHashes (n : Nat) (data : Bytes) (r : Nat → Except ReadErr Bytes) :
    Except ReadErr (List Bytes) :=
  storedHashesForRecordHash n (recordHash data) r

/-- Floor of log₂ (fuel-structured): the level search of `tlog.maxpow2`. -/
def log2F : Nat → Nat → Nat
  | 0, _ => 0
  | f + 1, n => if n ≤ 1 then 0 else 1 + log2F f (n / 2)

/-- `tlog.maxpow2`: the largest power of two strictly below `n` (for
`n ≥ 2`), with its exponent. -/
def maxpow2 (n : Nat) : Nat × Nat :=
  let l := log2F (n - 1) (n - 1)
  (2 ^ l, l)

/-- The combined walk of `tlog.subTreeIndex`/`subTreeHash` for the records
`[lo, hi)`: split off maximal complete subtrees left to right, read each
root from storage. -/
def subTreeCollect (r : Nat → Except ReadErr Bytes) : Nat → Nat → Nat → Except ReadErr (List Bytes)
  | 0, _, _ => .ok []
  | f + 1, lo, hi =>
    if lo < hi then
      let p := maxpow2 (hi - lo + 1)
      match r (storedHashIndex p.2 (lo >>> p.2)) with
      | .error e => .error e
      | .ok h =>
        match subTreeCollect r f (lo + p.1) hi with
        | .error e => .error e
        | .ok hs => .ok (h :: hs)
    else .ok []

/-- `tlog.subTreeHash`'s right-to-left assembly of the collected subtree
roots. -/
def combineRL : List Bytes → Bytes
  | [] => zeroHash
  | [x] => x
  | x :: y :: t => nodeHash x (combineRL (y :: t))

/-- `tlog.TreeHash`: the root hash of the tree with `n` records, reading
stored hashes through `r`.  The tree of size zero has the all-zero hash
(the library's documented convention). -/
def treeHash (n : Nat) (r : Nat → Except ReadErr Bytes) : Except ReadErr Bytes :=
  if n = 0 then .ok zeroHash
  else
    match subTreeCollect r n 0 n with
    | .error e => .error e
    | .ok hs => .ok (combineRL hs)

/-- The per-level body of `tlog.NewTiles`. -/
def tilesAtLevel (h level oldSize newSize : Nat) : List Tile :=
  let oldN := oldSize >>> (h * level)
  let newN := newSize >>> (h * level)
  if oldN = newN then []
  else
    (List.range' (oldN >>> h) (newN >>> h - oldN >>> h)).map
      (fun n => { H := h, L := (level : Int), N := n, W := 2 ^ h }) ++
    (if newN - (newN >>> h) <<< h > 0 then
      [{ H := h, L := (level : Int), N := newN >>> h, W := newN - (newN >>> h) <<< h }]
    else [])

/-- `tlog.NewTiles`: the tiles that change when the tree grows from
`oldSize` to `newSize`.  The Go loop runs while `newSize >> (h*level) > 0`;
since sizes are `int64`, 64 levels always suffice. -/
def newTiles (h oldSize newSize : Nat) : List Tile :=
  ((List.range 64).map (fun level =>
    if newSize >>> (h * level) > 0 then tilesAtLevel h level oldSize newSize else [])).flatten

/-- `tlog.ReadTileData`: materialise a tile's data (its bottom-row hashes,
concatenated) by reading the corresponding stored-hash indices. -/
def readTileData (t : Tile) (r : Nat → Except ReadErr Bytes) : Except ReadErr Bytes :=
  match (List.range t.W).mapM (fun i => r (storedHashIndex (t.H * t.L.toNat) (t.N <<< t.H + i))) with
  | .error e => .error e
  | .ok hs => .ok hs.flatten

/-! ## Model of the ctlog data structures and operations (from ctlog.go) -/

def tileHeight : Nat := 10
def tileWidth : Nat := 1 <<< tileHeight

/-- `treeWithTimestamp` from ctlog.go: a `tlog.Tree` (size and root hash)
with the STH timestamp. -/
structure treeWithTimestamp where
  N : Nat
  Hash : Bytes
  Time : Int
deriving DecidableEq

/-- `tileWithBytes` from ctlog.go. -/
structure tileWithBytes where
  tile : Tile
  B : Bytes
deriving DecidableEq

/-- `pool` from ctlog.go: the pending leaves, the completion gate `done`,
and the results set when the pool is sequenced.  `firstLeafIndex` and
`timestamp` keep their Go zero values until `done` is closed. -/
structure PoolState where
  pendingLeaves : List logEntry
  done : Bool
  firstLeafIndex : Nat
  timestamp : Int
deriving DecidableEq

def freshPool : PoolState :=
  { pendingLeaves := [], done := false, firstLeafIndex := 0, timestamp := 0 }

/-- The future returned by `addLeafToPool`: it blocks on `p.done` and then
yields `p.firstLeafIndex + n`; `none` models a still-blocked waiter. -/
def futureValue (p : PoolState) (n : Nat) : Option Nat :=
  if p.done then some (p.firstLeafIndex + n) else none

/-- `Log` from ctlog.go (the sequencer-owned state; the backend is
threaded separately). -/
structure LogState where
  name : String
  logID : Bytes
  privKey : Signer
  tree : treeWithTimestamp
  edgeTiles : Int → Option tileWithBytes
  currentPool : PoolState

/-- The backend object store: a strongly consistent map from keys to byte
strings. -/
def Backend := TKey → Option Bytes

/-- `(*Log).addLeafToPool`: append the leaf to the current pool and return
the new state together with the `n` captured by the returned future. -/
def addLeafToPool (l : LogState) (leaf : logEntry) : LogState × Nat :=
  let p := l.currentPool
  let n := p.pendingLeaves.length
  ({ l with currentPool := { p with pendingLeaves := p.pendingLeaves ++ [leaf] } }, n)

/-- Iterated `addLeafToPool`, collecting each returned future offset. -/
def addLeaves : LogState → List logEntry → LogState × List Nat
  | l, [] => (l, [])
  | l, e :: es =>
    let r := addLeafToPool l e
    let rr := addLeaves r.1 es
    (rr.1, r.2 :: rr.2)

/-- `(*Log).hashReader` from ctlog.go: serve a stored-hash index from the
in-flight overlay if present, otherwise from the edge tile of the index's
tile level (a missing edge tile yields `HashFromTile`'s error on the zero
tile). -/
def hashReaderFn (edge : Int → Option tileWithBytes) (overlay : Nat → Option Bytes)
    (id : Nat) : Except ReadErr Bytes :=
  match overlay id with
  | some h => .ok h
  | none =>
    match edge (tileForIndex tileHeight id).L with
    | none => .error .missingTile
    | some t => hashFromTile t.tile t.B id

/-- `ct.SerializeSTHSignatureInput` (external certificate-transparency-go
helper, modelled from RFC 6962 §3.5): `version(0) || signature_type(1) ||
u64 timestamp || u64 tree_size || sha256_root_hash`. -/
def serializeSTHSignatureInput (tree : treeWithTimestamp) : Bytes :=
  [0, 1] ++ beBytes 8 (toU64 tree.Time) ++ beBytes 8 tree.N ++ tree.Hash

/-- The signed checkpoint assembled by `signTreeHead`: the c2sp.org
checkpoint body (origin, size, root hash) and the injected note signature
whose payload is `u64 timestamp || DigitallySigned` under the key hash
derived from the log ID.  The textual note serialisation of the external
`tlogx`/`note` libraries is abstracted into this record; `time` records
the timestamp carried inside the signature payload. -/
structure Checkpoint where
  origin : String
  n : Nat
  treeHash : Bytes
  time : Int
  keyId : Bytes
  sig : Bytes
deriving DecidableEq

/-- A concrete byte rendering of a checkpoint, standing in for the
note-format serialisation when the checkpoint is stored in the backend. -/
def checkpointBytes (c : Checkpoint) : Bytes :=
  (c.origin.toUTF8.toList.map (fun b => b.toNat)) ++ [10] ++ beBytes 8 c.n ++ [10] ++
    c.treeHash ++ [10] ++ c.keyId ++ c.sig

/-- `signTreeHead` from ctlog.go: serialise the RFC 6962 tree head
signature input, sign it with `digitallySign`, and assemble the checkpoint
with the injected `u64 timestamp || TreeHeadSignature` note signature. -/
def signTreeHead (name : String) (logID : Bytes) (privKey : Signer)
    (tree : treeWithTimestamp) : Except SignError Checkpoint :=
  match digitallySign privKey (serializeSTHSignatureInput tree) with
  | .error e => .error e
  | .ok ths =>
    .ok { origin := name, n := tree.N, treeHash := tree.Hash, time := tree.Time,
          keyId := logID, sig := beBytes 8 (toU64 tree.Time) ++ ths }

inductive CreateErr where
  | signFailed (e : SignError)
  | uploadFailed
deriving DecidableEq

/-- `CreateLog` from ctlog.go: compute the log ID from the public key,
build the zero-value tree (`tlog.Tree{}`: size 0 and the all-zero hash)
stamped with the current time, sign it, and upload the checkpoint under
`"sth"`.  `upOk` models which uploads the backend accepts. -/
def CreateLog (name : String) (key : Signer) (bk : Backend) (now : Int)
    (upOk : TKey → Bool) : Except CreateErr (Backend × Checkpoint) :=
  let tree : treeWithTimestamp := { N := 0, Hash := zeroHash, Time := now }
  match signTreeHead name (sha256 key.pkix) key tree with
  | .error e => .error (.signFailed e)
  | .ok ck =>
    if upOk .sth then
      .ok (fun k => if k = .sth then some (checkpointBytes ck) else bk k, ck)
    else .error .uploadFailed

/-- The checkpoint contents `LoadLog` obtains from fetching and verifying
`"sth"` through the external note/`tlogx` libraries: the parsed origin,
size, hash and extension, with the timestamp delivered by the verifier
callback. -/
structure ParsedCheckpoint where
  origin : String
  n : Nat
  hash : Bytes
  extension : String
deriving DecidableEq

inductive LoadErr where
  | timeBeforeSTH
  | originMismatch
  | unexpectedExtension
  | rehydrateFailed
deriving DecidableEq

/-- `LoadLog` from ctlog.go, from the point where the checkpoint has been
fetched, note-verified and parsed (the external fetch/verify/parse steps
are inputs here): reject a checkpoint from the future, a wrong origin, or
a non-empty extension; for `N > 0` rehydrate the edge tiles by walking the
tree (an external `tlog.TileHashReader` walk plus the data-tile check,
abstracted as the `rehydrate` argument); for `N = 0` the edge-tile map is
empty. -/
def LoadLog (name : String) (logID : Bytes) (key : Signer) (c : ParsedCheckpoint)
    (timestamp now : Int)
    (rehydrate : Nat → Bytes → Except Unit (Int → Option tileWithBytes)) :
    Except LoadErr LogState :=
  if now < timestamp then .error .timeBeforeSTH
  else if c.origin ≠ name then .error .originMismatch
  else if c.extension ≠ "" then .error .unexpectedExtension
  else
    match c.n with
    | 0 =>
      .ok { name := name, logID := logID, privKey := key,
            tree := { N := c.n, Hash := c.hash, Time := timestamp },
            edgeTiles := fun _ => none, currentPool := freshPool }
    | _ + 1 =>
      match rehydrate c.n c.hash with
      | .error _ => .error .rehydrateFailed
      | .ok edge =>
        .ok { name := name, logID := logID, privKey := key,
              tree := { N := c.n, Hash := c.hash, Time := timestamp },
              edgeTiles := edge, currentPool := freshPool }

/-- Errors of a sequencing round. -/
inductive SeqErr where
  | timeNotMonotonic
  | storedHashesFailed
  | readTileDataFailed
  | uploadFailed
  | treeHashFailed
  | signFailed
  | sthUploadFailed
deriving DecidableEq

/-- The local state of a sequencing round: the loop counter `n`, the
`newHashes` overlay, the pending (partial) data tile bytes, the working
copy of `edgeTiles`, and the uploads scheduled so far. -/
structure LoopSt where
  n : Nat
  newHashes : Nat → Option Bytes
  dataTile : Bytes
  edgeTiles : Int → Option tileWithBytes
  uploads : List (TKey × Bytes)

/-- Store `hs` at consecutive overlay indices starting at `base`
(`newHashes[StoredHashIndex(0, n) + i] = h`). -/
def writeHashes (m : Nat → Option Bytes) (base : Nat) : List Bytes → Nat → Option Bytes
  | [] => m
  | h :: t => writeHashes (fun id => if id = base then some h else m id) (base + 1) t

def updateEdge (e : Int → Option tileWithBytes) (lvl : Int) (t : tileWithBytes) :
    Int → Option tileWithBytes :=
  fun l => if l = lvl then some t else e l

/-- The `edgeTiles` update rule of `sequencePool` (line 355): install the
tile if the level is empty or the tile is strictly newer or wider. -/
def updateEdgeIf (e : Int → Option tileWithBytes) (tile : Tile) (data : Bytes) :
    Int → Option tileWithBytes :=
  match e tile.L with
  | none => updateEdge e tile.L ⟨tile, data⟩
  | some t =>
    if t.tile.N < tile.N ∨ (t.tile.N = tile.N ∧ t.tile.W < tile.W) then
      updateEdge e tile.L ⟨tile, data⟩
    else e

/-- The per-leaf loop of `sequencePool` (lines 317-338): fetch the stored
hashes for the leaf, extend the overlay and the data tile, and on a full
data tile record and schedule it.  On error the round aborts, keeping the
uploads scheduled so far (their goroutines still run under the deferred
`g.Wait`). -/
def seqLoop (l : LogState) (ts : Int) : List logEntry → LoopSt → Except (SeqErr × LoopSt) LoopSt
  | [], st => .ok st
  | leaf :: rest, st =>
    match storedHashes st.n (leaf.merkleTreeLeaf ts) (hashReaderFn l.edgeTiles st.newHashes) with
    | .error _ => .error (.storedHashesFailed, st)
    | .ok hashes =>
      let nh := writeHashes st.newHashes (storedHashIndex 0 st.n) hashes
      let dt := st.dataTile ++ leaf.tileLeaf ts
      let n' := st.n + 1
      if n' % tileWidth = 0 then
        let tile := { tileForIndex tileHeight (storedHashIndex 0 (n' - 1)) with L := -1 }
        seqLoop l ts rest
          { n := n', newHashes := nh, dataTile := [],
            edgeTiles := updateEdge st.edgeTiles (-1) ⟨tile, dt⟩,
            uploads := st.uploads ++ [(tile.path, dt)] }
      else
        seqLoop l ts rest { st with n := n', newHashes := nh, dataTile := dt }

/-- The hash-tile phase of `sequencePool` (lines 348-359): materialise
each new tile, update the working edge tiles, schedule the upload. -/
def tilesPhase (l : LogState) : List Tile → LoopSt → Except (SeqErr × LoopSt) LoopSt
  | [], st => .ok st
  | tile :: rest, st =>
    match readTileData tile (hashReaderFn l.edgeTiles st.newHashes) with
    | .error _ => .error (.readTileDataFailed, st)
    | .ok data =>
      tilesPhase l rest
        { st with edgeTiles := updateEdgeIf st.edgeTiles tile data,
                  uploads := st.uploads ++ [(tile.path, data)] }

/-- Apply the scheduled uploads to the backend: uploads accepted by the
oracle persist, failed ones leave the store unchanged. -/
def applyUploads (bk : Backend) (ups : List (TKey × Bytes)) (upOk : TKey → Bool) : Backend :=
  ups.foldl (fun bk u => if upOk u.1 then fun k => if k = u.1 then some u.2 else bk k else bk) bk

def uploadsOk (ups : List (TKey × Bytes)) (upOk : TKey → Bool) : Bool :=
  ups.all (fun u => upOk u.1)

/-- The result of a sequencing round: the new log state, the backend after
the round's uploads, the captured pool (whose gate is closed only on
success), and the error if the round failed. -/
structure SeqOut where
  log : LogState
  backend : Backend
  captured : PoolState
  err : Option SeqErr

/-- The pool swap of `sequencePool` (lines 294-297): install a fresh pool;
the captured pool is `l.currentPool`. -/
def swapLog (l : LogState) : LogState := { l with currentPool := freshPool }

/-- The data-tile seed of `sequencePool` (lines 310-313): clone the bytes
of a partial edge data tile, if any. -/
def seqInitDataTile (l : LogState) : Bytes :=
  match l.edgeTiles (-1) with
  | some t => if t.tile.W < tileWidth then t.B else []
  | none => []

/-- The initial loop state of a round (lines 309-316). -/
def seqInit (l : LogState) : LoopSt :=
  { n := l.tree.N, newHashes := fun _ => none, dataTile := seqInitDataTile l,
    edgeTiles := l.edgeTiles, uploads := [] }

/-- The partial-data-tile step of `sequencePool` (lines 340-346): if the
final data tile is partial, record it in the working edge tiles and
schedule its upload. -/
def seqPartial (st1 : LoopSt) : LoopSt :=
  if st1.n % tileWidth ≠ 0 then
    { st1 with
      edgeTiles := updateEdge st1.edgeTiles (-1)
        ⟨{ tileForIndex tileHeight (storedHashIndex 0 (st1.n - 1)) with L := -1 }, st1.dataTile⟩,
      uploads := st1.uploads ++
        [(Tile.path { tileForIndex tileHeight (storedHashIndex 0 (st1.n - 1)) with L := -1 },
          st1.dataTile)] }
  else st1

/-- The tail of `sequencePool` after the tile phase (lines 361-388): await
the uploads, recompute the root, sign the tree head, upload the STH, and
only on success close the captured pool's gate and publish the new tree
and edge tiles. -/
def seqFinish (l : LogState) (bk : Backend) (ts : Int) (upOk : TKey → Bool) (st2 : LoopSt) : SeqOut :=
  if uploadsOk st2.uploads upOk = false then
    { log := swapLog l, backend := applyUploads bk st2.uploads upOk,
      captured := l.currentPool, err := some .uploadFailed }
  else
    match treeHash st2.n (hashReaderFn l.edgeTiles st2.newHashes) with
    | .error _ =>
      { log := swapLog l, backend := applyUploads bk st2.uploads upOk,
        captured := l.currentPool, err := some .treeHashFailed }
    | .ok rootHash =>
      match signTreeHead l.name l.logID l.privKey { N := st2.n, Hash := rootHash, Time := ts } with
      | .error _ =>
        { log := swapLog l, backend := applyUploads bk st2.uploads upOk,
          captured := l.currentPool, err := some .signFailed }
      | .ok ck =>
        if upOk .sth then
          { log := { swapLog l with
                       tree := { N := st2.n, Hash := rootHash, Time := ts },
                       edgeTiles := st2.edgeTiles },
            backend := fun k =>
              if k = .sth then some (checkpointBytes ck)
              else applyUploads bk st2.uploads upOk k,
            captured := { l.currentPool with
                            done := true, timestamp := ts, firstLeafIndex := l.tree.N },
            err := none }
        else
          { log := swapLog l, backend := applyUploads bk st2.uploads upOk,
            captured := l.currentPool, err := some .sthUploadFailed }

/-- `(*Log).sequencePool` from ctlog.go.  Swap the pool; fail unless the
wall clock advanced past the last tree timestamp; run the per-leaf loop;
schedule the partial data tile; materialise and schedule the new hash
tiles; await the uploads; recompute the root; sign and upload the STH;
only then close the pool gate and publish the new tree and edge tiles. -/
def sequencePool (l : LogState) (bk : Backend) (ts : Int) (upOk : TKey → Bool) : SeqOut :=
  if ts ≤ l.tree.Time then
    { log := swapLog l, backend := bk, captured := l.currentPool, err := some .timeNotMonotonic }
  else
    match seqLoop l ts l.currentPool.pendingLeaves (seqInit l) with
    | .error (e, st) =>
      { log := swapLog l, backend := applyUploads bk st.uploads upOk,
        captured := l.currentPool, err := some e }
    | .ok st1 =>
      match tilesPhase l (newTiles tileHeight l.tree.N (seqPartial st1).n) (seqPartial st1) with
      | .error (e, st2) =>
        { log := swapLog l, backend := applyUploads bk st2.uploads upOk,
          captured := l.currentPool, err := some e }
      | .ok st2 => seqFinish l bk ts upOk st2

/-! ## The external reader view and the sequencing trace (towards C1)

`leafReadTile`/`storedLeafHash` model how a monitor reads the level-0
stored hash of leaf `i` from the published object store of a log of size
`sz`: fetch the level-0 tile containing position `i` (the full tile if
that block of 1024 leaves is complete, otherwise the pending partial
tile, matching the `Tile.Path` layout the sequencer uploads) and extract
the stored hash with `tlog.HashFromTile`.  `Event`/`step`/`run` replay a
schedule of `addLeafToPool` calls and `sequencePool` rounds against the
log and its backend. -/

/-- An arbitrary entry, used only as a `getD` default. -/
def dummyEntry : logEntry :=
  { cert := [], isPrecert := false, issuerKeyHash := [],
    preCertificate := [], precertSigningCert := [] }

/-- The level-0 tile a reader fetches for leaf `i` of a tree of size
`sz`: the full tile when the 1024-leaf block of `i` is complete,
otherwise the pending partial tile. -/
def leafReadTile (sz i : Nat) : Tile :=
  if (i / 1024 + 1) * 1024 ≤ sz then
    { H := tileHeight, L := 0, N := i / 1024, W := 1024 }
  else
    { H := tileHeight, L := 0, N := i / 1024, W := sz - (i / 1024) * 1024 }

/-- The level-0 stored hash of leaf `i`, as an external reader obtains it
from the backend: fetch the tile, extract with `tlog.HashFromTile` at
`tlog.StoredHashIndex(0, i)`. -/
def storedLeafHash (bk : Backend) (sz i : Nat) : Option Bytes :=
  match bk (leafReadTile sz i).path with
  | none => none
  | some data =>
    match hashFromTile (leafReadTile sz i) data (storedHashIndex 0 i) with
    | .ok h => some h
    | .error _ => none

/-- The level-0 edge tile the sequencer maintains for a log whose leaf
hashes are `lh`: the rightmost level-0 tile, its data the concatenated
leaf hashes of the last (possibly incomplete) block. -/
def canonEdge (lh : List Bytes) : Option tileWithBytes :=
  if lh.length = 0 then none
  else
    some ⟨{ H := tileHeight, L := 0, N := (lh.length - 1) / 1024,
            W := (lh.length - 1) % 1024 + 1 },
          (lh.drop (((lh.length - 1) / 1024) * 1024)).flatten⟩

/-- The level-0 coherence invariant relating a log state and the backend
to the list `lh` of the log's leaf hashes: the tree size is `lh.length`,
every leaf hash is 32 bytes, the level-0 edge tile is the canonical one,
and the backend serves every leaf hash to an external reader. -/
def Good (l : LogState) (bk : Backend) (lh : List Bytes) : Prop :=
  l.tree.N = lh.length ∧
  (∀ h ∈ lh, h.length = 32) ∧
  l.edgeTiles 0 = canonEdge lh ∧
  ∀ i, i < lh.length → storedLeafHash bk lh.length i = some (lh.getD i zeroHash)

/-- An event of the sequencer's life: accepting one leaf into the current
pool, or running a sequencing round at a given timestamp with a given
upload-acceptance oracle. -/
inductive Event where
  | add (e : logEntry)
  | seq (ts : Int) (upOk : TKey → Bool)

/-- The sequencer plus its object store. -/
structure Sys where
  log : LogState
  backend : Backend

def step (s : Sys) : Event → Sys
  | .add e => { s with log := (addLeafToPool s.log e).1 }
  | .seq ts upOk =>
    { log := (sequencePool s.log s.backend ts upOk).log,
      backend := (sequencePool s.log s.backend ts upOk).backend }

def run (s : Sys) : List Event → Sys
  | [] => s
  | ev :: evs => run (step s ev) evs

/-- The value of the last scheduled upload for a key, if any. -/
def lastVal : List (TKey × Bytes) → TKey → Option Bytes
  | [], _ => none
  | u :: t, k =>
    match lastVal t k with
    | some v => some v
    | none => if u.1 = k then some u.2 else none

/-! ## Concrete fixtures used by witnesses and counterexamples -/

def c6Entry : logEntry :=
  { cert := [0xAA], isPrecert := false, issuerKeyHash := List.replicate 32 0,
    preCertificate := [], precertSigningCert := [] }

def c7SignerRsa : Signer := { pub := .rsa, pkix := [], sign := fun _ => .ok [9] }

def c7SignerOther : Signer := { pub := .other, pkix := [], sign := fun _ => .ok [9] }

/-- A concrete precert entry exercising the unimplemented precert branch of
`ReadTileLeaf`. -/
def precertProbe : logEntry :=
  { cert := [0xAA], isPrecert := true, issuerKeyHash := List.replicate 32 0x11,
    preCertificate := [0xBB], precertSigningCert := [] }

/-- A trivial always-succeeding ECDSA signer for witnesses. -/
def dummySigner : Signer := { pub := .ecdsa, pkix := [], sign := fun _ => .ok [1] }

/-- An empty log state (as produced by loading a size-0 checkpoint) with
the given tree timestamp. -/
def emptyLog (t : Int) : LogState :=
  { name := "", logID := [], privKey := dummySigner,
    tree := { N := 0, Hash := zeroHash, Time := t },
    edgeTiles := fun _ => none, currentPool := freshPool }

def noneBackend : Backend := fun _ => none

def allOk : TKey → Bool := fun _ => true

/-- The checkpoint `signTreeHead` produces for the empty tree at time 1
under `dummySigner`. -/
def c9Ck : Checkpoint :=
  { origin := "", n := 0, treeHash := zeroHash, time := 1, keyId := [],
    sig := [0, 0, 0, 0, 0, 0, 0, 1, 4, 3, 0, 1, 1] }

def c8Bad : ParsedCheckpoint := { origin := "y", n := 3, hash := zeroHash, extension := "" }

def c8Good : ParsedCheckpoint := { origin := "x", n := 0, hash := zeroHash, extension := "" }

def c8Rehydrate : Nat → Bytes → Except Unit (Int → Option tileWithBytes) :=
  fun _ _ => .error ()

/-- A fresh log with one accepted leaf in its current pool and an empty
object store. -/
def c1Sys : Sys :=
  { log := { emptyLog 0 with currentPool := { freshPool with pendingLeaves := [c6Entry] } },
    backend := noneBackend }

/-! ## Theorems -/

set_option maxRecDepth 10000 in
theorem sha256_empty :
    sha256 [] = [0xe3, 0xb0, 0xc4, 0x42, 0x98, 0xfc, 0x1c, 0x14, 0x9a, 0xfb, 0xf4, 0xc8,
      0x99, 0x6f, 0xb9, 0x24, 0x27, 0xae, 0x41, 0xe4, 0x64, 0x9b, 0x93, 0x4c,
      0xa4, 0x95, 0x99, 0x1b, 0x78, 0x52, 0xb8, 0x55] := by
  decide

/-- Claim C6: `merkleTreeLeaf` emits version 0 and leaf type 0 followed by
the `TimestampedEntry` encoding, which is the big-endian u64 timestamp,
then entry type 0 with a u24-length-prefixed cert for x509 entries, or
entry type 1 with the 32-byte issuer key hash and the u24-length-prefixed
TBS certificate for precerts, ending with a u16-length-prefixed extensions
field that is always empty. -/
theorem C6_merkleTreeLeaf_format (e : logEntry) (ts : Int) (hw : e.wf) :
    e.merkleTreeLeaf ts = [0, 0] ++ e.timestampedEntry ts ∧
    e.timestampedEntry ts =
      beBytes 8 (toU64 ts) ++
        (if e.isPrecert = false then
          [0] ++ beBytes 3 e.cert.length ++ e.cert
        else
          [1] ++ e.issuerKeyHash ++ beBytes 3 e.cert.length ++ e.cert) ++
        [0, 0] := by
  have h20 : beBytes 2 0 = [0, 0] := rfl
  unfold logEntry.merkleTreeLeaf logEntry.timestampedEntry logEntry.timestampedEntryB
  constructor <;> cases h : e.isPrecert <;>
    simp [h, Builder.addUint8, Builder.addUint64, Builder.addBytes,
      Builder.addUint16LengthPrefixed, Builder.addUint24LengthPrefixed, Builder.empty, h20]

theorem C6_merkleTreeLeaf_format_witness :
    c6Entry.wf ∧
    (c6Entry.merkleTreeLeaf 5 = [0, 0] ++ c6Entry.timestampedEntry 5 ∧
     c6Entry.timestampedEntry 5 =
       beBytes 8 (toU64 5) ++
         (if c6Entry.isPrecert = false then
           [0] ++ beBytes 3 c6Entry.cert.length ++ c6Entry.cert
         else
           [1] ++ c6Entry.issuerKeyHash ++ beBytes 3 c6Entry.cert.length ++ c6Entry.cert) ++
         [0, 0]) :=
  ⟨by decide, C6_merkleTreeLeaf_format c6Entry 5 (by decide)⟩

/-- Claim C7: `digitallySign` returns the byte 4 (SHA-256), then 1 for an
RSA key or 3 for an ECDSA key, then the u16-length-prefixed signature over
the SHA-256 digest of the message; for any other key type it returns an
error and no encoding. -/
theorem C7_digitallySign_encoding (k : Signer) (msg sig : Bytes) :
    (k.sign (sha256 msg) = .ok sig → sig.length < 2 ^ 16 →
      (k.pub = .rsa →
        digitallySign k msg = .ok ([4, 1] ++ beBytes 2 sig.length ++ sig)) ∧
      (k.pub = .ecdsa →
        digitallySign k msg = .ok ([4, 3] ++ beBytes 2 sig.length ++ sig))) ∧
    (k.pub = .other → ∃ e, digitallySign k msg = .error e) := by
  unfold digitallySign
  constructor
  · intro hsig hlen
    rw [hsig]
    have hlen' : sig.length < 65536 := by omega
    constructor <;> intro hpub <;> rw [hpub] <;>
      simp [hlen, hlen', Builder.addUint8, Builder.addBytes,
        Builder.addUint16LengthPrefixed, Builder.empty]
  · intro hpub
    rw [hpub]
    cases hs : k.sign (sha256 msg) with
    | error e => exact ⟨.signFailed, rfl⟩
    | ok s => exact ⟨.unsupportedKeyType, rfl⟩

theorem C7_digitallySign_encoding_witness :
    c7SignerRsa.sign (sha256 []) = .ok [9] ∧ ([9] : Bytes).length < 2 ^ 16 ∧
    c7SignerRsa.pub = .rsa ∧
    digitallySign c7SignerRsa [] = .ok ([4, 1] ++ beBytes 2 ([9] : Bytes).length ++ [9]) ∧
    c7SignerOther.pub = .other ∧
    (∃ e, digitallySign c7SignerOther [] = .error e) :=
  ⟨rfl, by decide, rfl,
    ((C7_digitallySign_encoding c7SignerRsa [] [9]).1 rfl (by decide)).1 rfl,
    rfl, (C7_digitallySign_encoding c7SignerOther [] [9]).2 rfl⟩

/-- Claim C4 (code bug evaluation): parsing the serialised tile leaf of a
precert entry does not succeed and return the entry; `ReadTileLeaf` hits
`panic("unimplemented")` on entry type 1, so the claimed round-trip fails
for the precert variant. -/
theorem C4_precert_roundTrip_panics :
    ReadTileLeaf (precertProbe.tileLeaf 1) = .panicked ∧
    precertProbe.wf := by
  constructor <;> decide

/-- Claim C10: whenever `ReadTileLeaf` returns without error, the returned
`timestampedEntry` concatenated with the returned rest equals the input,
the returned timestamp is the big-endian u64 of the input's first 8 bytes,
and the returned cert is a contiguous subslice of the consumed prefix. -/
theorem C10_ReadTileLeaf_consumes_prefix (tile te cert : Bytes) (ts : Nat) (rest : Bytes)
    (h : ReadTileLeaf tile = .ok te cert ts rest) :
    te ++ rest = tile ∧ ts = beNat (tile.take 8) ∧
    ∃ pre post, te = pre ++ cert ++ post := by
  simp only [ReadTileLeaf] at h
  split_ifs at h with h1 h2 h3 h4 h5 h6 <;> try (exact ReadTileLeafResult.noConfusion h)
  simp only [List.drop_drop, Nat.reduceAdd] at h h4 h5 h6
  injection h with hte hcert hts hrest
  subst hte hcert hts hrest
  simp only [List.length_drop] at h3 h4 h5 h6
  set len := beNat (List.take 3 (List.drop 9 tile)) with hlendef
  set elen := beNat (List.take 2 (List.drop (12 + len) tile)) with helendef
  have hM : 12 + len + 2 + elen ≤ tile.length := by omega
  refine ⟨?_, rfl, ?_⟩
  · rw [List.length_drop, Nat.sub_sub_self hM]
    exact List.take_append_drop _ tile
  · refine ⟨List.take 12 tile, List.take (2 + elen) (List.drop (12 + len) tile), ?_⟩
    rw [List.length_drop, Nat.sub_sub_self hM]
    rw [show 12 + len + 2 + elen = 12 + (len + (2 + elen)) by omega]
    rw [List.take_add, List.take_add, List.drop_drop]
    simp [List.append_assoc]

theorem C10_ReadTileLeaf_consumes_prefix_witness :
    ReadTileLeaf (c6Entry.tileLeaf 7) = .ok (c6Entry.tileLeaf 7) [0xAA] 7 [] ∧
    (c6Entry.tileLeaf 7 ++ [] = c6Entry.tileLeaf 7 ∧
     7 = beNat ((c6Entry.tileLeaf 7).take 8) ∧
     ∃ pre post, c6Entry.tileLeaf 7 = pre ++ [0xAA] ++ post) :=
  ⟨by decide,
    C10_ReadTileLeaf_consumes_prefix (c6Entry.tileLeaf 7) (c6Entry.tileLeaf 7) [0xAA] 7 []
      (by decide)⟩

/-! ## Sequencer helper lemmas -/

theorem seqLoop_ok_n (l : LogState) (ts : Int) :
    ∀ (leaves : List logEntry) (st st' : LoopSt),
      seqLoop l ts leaves st = .ok st' → st'.n = st.n + leaves.length := by
  intro leaves
  induction leaves with
  | nil =>
    intro st st' h
    unfold seqLoop at h
    cases h
    simp
  | cons leaf rest ih =>
    intro st st' h
    unfold seqLoop at h
    cases hm : storedHashes st.n (leaf.merkleTreeLeaf ts) (hashReaderFn l.edgeTiles st.newHashes) with
    | error e => rw [hm] at h; cases h
    | ok hashes =>
      rw [hm] at h
      simp only at h
      split at h <;> (have h9 := ih _ _ h; simp at h9; simp [h9]; omega)

theorem tilesPhase_ok_n (l : LogState) :
    ∀ (tiles : List Tile) (st st' : LoopSt),
      tilesPhase l tiles st = .ok st' → st'.n = st.n := by
  intro tiles
  induction tiles with
  | nil =>
    intro st st' h
    unfold tilesPhase at h
    cases h
    rfl
  | cons tile rest ih =>
    intro st st' h
    unfold tilesPhase at h
    cases hm : readTileData tile (hashReaderFn l.edgeTiles st.newHashes) with
    | error e => rw [hm] at h; cases h
    | ok data =>
      rw [hm] at h
      simp only at h
      have h2 := ih _ _ h
      exact h2

theorem seqPartial_n (st1 : LoopSt) : (seqPartial st1).n = st1.n := by
  unfold seqPartial
  split <;> rfl

theorem seqFinish_facts (l : LogState) (bk : Backend) (ts : Int) (upOk : TKey → Bool)
    (st2 : LoopSt) :
    ((seqFinish l bk ts upOk st2).err = none →
      (seqFinish l bk ts upOk st2).captured =
        { l.currentPool with done := true, timestamp := ts, firstLeafIndex := l.tree.N } ∧
      (seqFinish l bk ts upOk st2).log.tree.N = st2.n ∧
      (seqFinish l bk ts upOk st2).log.tree.Time = ts ∧
      (seqFinish l bk ts upOk st2).log.edgeTiles = st2.edgeTiles) ∧
    ((seqFinish l bk ts upOk st2).err ≠ none →
      (seqFinish l bk ts upOk st2).log.tree = l.tree ∧
      (seqFinish l bk ts upOk st2).log.edgeTiles = l.edgeTiles ∧
      (seqFinish l bk ts upOk st2).captured = l.currentPool) := by
  unfold seqFinish
  split
  · exact ⟨fun h => Option.noConfusion h, fun _ => ⟨rfl, rfl, rfl⟩⟩
  · split
    · exact ⟨fun h => Option.noConfusion h, fun _ => ⟨rfl, rfl, rfl⟩⟩
    · split
      · exact ⟨fun h => Option.noConfusion h, fun _ => ⟨rfl, rfl, rfl⟩⟩
      · split
        · exact ⟨fun _ => ⟨rfl, rfl, rfl, rfl⟩, fun h => absurd rfl h⟩
        · exact ⟨fun h => Option.noConfusion h, fun _ => ⟨rfl, rfl, rfl⟩⟩

theorem sequencePool_facts (l : LogState) (bk : Backend) (ts : Int) (upOk : TKey → Bool) :
    ((sequencePool l bk ts upOk).err = none →
      (sequencePool l bk ts upOk).captured =
        { l.currentPool with done := true, timestamp := ts, firstLeafIndex := l.tree.N } ∧
      (sequencePool l bk ts upOk).log.tree.N =
        l.tree.N + l.currentPool.pendingLeaves.length ∧
      (sequencePool l bk ts upOk).log.tree.Time = ts) ∧
    ((sequencePool l bk ts upOk).err ≠ none →
      (sequencePool l bk ts upOk).log.tree = l.tree ∧
      (sequencePool l bk ts upOk).log.edgeTiles = l.edgeTiles ∧
      (sequencePool l bk ts upOk).captured = l.currentPool) ∧
    (ts ≤ l.tree.Time → (sequencePool l bk ts upOk).err = some .timeNotMonotonic) := by
  unfold sequencePool
  by_cases h1 : ts ≤ l.tree.Time
  · rw [if_pos h1]
    exact ⟨fun h => Option.noConfusion h, fun _ => ⟨rfl, rfl, rfl⟩, fun _ => rfl⟩
  · rw [if_neg h1]
    cases hseq : seqLoop l ts l.currentPool.pendingLeaves (seqInit l) with
    | error pr =>
      obtain ⟨e, st⟩ := pr
      exact ⟨fun h => Option.noConfusion h, fun _ => ⟨rfl, rfl, rfl⟩, fun hts => absurd hts h1⟩
    | ok st1 =>
      dsimp only
      cases htiles : tilesPhase l (newTiles tileHeight l.tree.N (seqPartial st1).n)
          (seqPartial st1) with
      | error pr =>
        obtain ⟨e, st⟩ := pr
        exact ⟨fun h => Option.noConfusion h, fun _ => ⟨rfl, rfl, rfl⟩, fun hts => absurd hts h1⟩
      | ok st2 =>
        dsimp only
        have hsf := seqFinish_facts l bk ts upOk st2
        refine ⟨fun h => ?_, fun h => hsf.2 h, fun hts => absurd hts h1⟩
        obtain ⟨hc, hn, htm, _⟩ := hsf.1 h
        refine ⟨hc, ?_, htm⟩
        rw [hn, tilesPhase_ok_n l _ _ _ htiles, seqPartial_n, seqLoop_ok_n l ts _ _ _ hseq]
        rfl

theorem seqPartial_newHashes (st1 : LoopSt) : (seqPartial st1).newHashes = st1.newHashes := by
  unfold seqPartial
  split <;> rfl

theorem uploadsOk_all (ups : List (TKey × Bytes)) (upOk : TKey → Bool)
    (h : ∀ k, upOk k = true) : uploadsOk ups upOk = true := by
  unfold uploadsOk
  simp only [List.all_eq_true]
  exact fun u _ => h u.1

theorem newTiles_self (h n : Nat) : newTiles h n n = [] := by
  unfold newTiles tilesAtLevel
  simp

theorem addLeaves_spec : ∀ (es : List logEntry) (l : LogState),
    (addLeaves l es).2 = List.range' l.currentPool.pendingLeaves.length es.length ∧
    (addLeaves l es).1 =
      { l with currentPool :=
          { l.currentPool with pendingLeaves := l.currentPool.pendingLeaves ++ es } } := by
  intro es
  induction es with
  | nil =>
    intro l
    refine ⟨rfl, ?_⟩
    show l = _
    rw [List.append_nil]
  | cons e es ih =>
    intro l
    obtain ⟨ih1, ih2⟩ := ih (addLeafToPool l e).1
    constructor
    · show (addLeafToPool l e).2 :: (addLeaves (addLeafToPool l e).1 es).2 = _
      rw [ih1]
      show l.currentPool.pendingLeaves.length ::
        List.range' (l.currentPool.pendingLeaves ++ [e]).length es.length = _
      rw [List.length_append, List.length_singleton, List.length_cons, List.range'_succ]
    · show (addLeaves (addLeafToPool l e).1 es).1 = _
      rw [ih2]
      show { l with currentPool :=
        { l.currentPool with pendingLeaves := (l.currentPool.pendingLeaves ++ [e]) ++ es } } = _
      rw [List.append_assoc, List.singleton_append]

/-! ## Claim theorems: sequencer -/

/-- Claim C3: `sequencePool` returns an error whenever the freshly read
wall-clock timestamp is not greater than `tree.Time`, and on every error
return the log's `tree` and `edgeTiles` are unchanged and the captured
pool is exactly the pool as it was (its `done` gate not closed, its
`firstLeafIndex` and `timestamp` untouched), so waiters stay blocked. -/
theorem C3_sequencePool_error_atomicity (l : LogState) (bk : Backend) (ts : Int)
    (upOk : TKey → Bool) :
    (ts ≤ l.tree.Time → (sequencePool l bk ts upOk).err = some .timeNotMonotonic) ∧
    (∀ e, (sequencePool l bk ts upOk).err = some e →
      (sequencePool l bk ts upOk).log.tree = l.tree ∧
      (sequencePool l bk ts upOk).log.edgeTiles = l.edgeTiles ∧
      (sequencePool l bk ts upOk).captured = l.currentPool ∧
      (l.currentPool.done = false → (sequencePool l bk ts upOk).captured.done = false)) := by
  refine ⟨(sequencePool_facts l bk ts upOk).2.2, fun e he => ?_⟩
  have hf := (sequencePool_facts l bk ts upOk).2.1 (by simp [he])
  exact ⟨hf.1, hf.2.1, hf.2.2, fun hd => by rw [hf.2.2]; exact hd⟩

theorem C3_sequencePool_error_atomicity_witness :
    ((5 : Int) ≤ (emptyLog 5).tree.Time) ∧
    (sequencePool (emptyLog 5) noneBackend 5 allOk).err = some .timeNotMonotonic ∧
    ((sequencePool (emptyLog 5) noneBackend 5 allOk).log.tree = (emptyLog 5).tree ∧
     (sequencePool (emptyLog 5) noneBackend 5 allOk).log.edgeTiles = (emptyLog 5).edgeTiles ∧
     (sequencePool (emptyLog 5) noneBackend 5 allOk).captured = (emptyLog 5).currentPool ∧
     ((emptyLog 5).currentPool.done = false →
       (sequencePool (emptyLog 5) noneBackend 5 allOk).captured.done = false)) :=
  ⟨by decide,
   (C3_sequencePool_error_atomicity (emptyLog 5) noneBackend 5 allOk).1 (by decide),
   (C3_sequencePool_error_atomicity (emptyLog 5) noneBackend 5 allOk).2 .timeNotMonotonic
     ((C3_sequencePool_error_atomicity (emptyLog 5) noneBackend 5 allOk).1 (by decide))⟩

/-- Claim C2: the `k`-th leaf appended by `addLeafToPool` into a fresh pool
records offset `k`; when a `sequencePool` round starting from tree size
`N0` successfully sequences that pool, the leaf's future yields exactly
`N0 + k`, and the pool occupies the contiguous index range
`[N0, N0 + len)` (the tree grows to exactly `N0 + len`). -/
theorem C2_index_assignment (l0 : LogState) (es : List logEntry) (bk : Backend) (ts : Int)
    (upOk : TKey → Bool) (h0 : l0.currentPool = freshPool) :
    (addLeaves l0 es).2 = List.range es.length ∧
    (addLeaves l0 es).1.currentPool.pendingLeaves = es ∧
    ((sequencePool (addLeaves l0 es).1 bk ts upOk).err = none →
      (∀ k, k < es.length →
        futureValue (sequencePool (addLeaves l0 es).1 bk ts upOk).captured k =
          some (l0.tree.N + k)) ∧
      (sequencePool (addLeaves l0 es).1 bk ts upOk).log.tree.N = l0.tree.N + es.length) := by
  obtain ⟨h1, h2⟩ := addLeaves_spec es l0
  rw [h0] at h1 h2
  have hpool : (addLeaves l0 es).1.currentPool.pendingLeaves = es := by
    rw [h2]
    show freshPool.pendingLeaves ++ es = es
    rfl
  have htree : (addLeaves l0 es).1.tree = l0.tree := by rw [h2]
  refine ⟨?_, hpool, fun hsucc => ?_⟩
  · rw [h1, List.range_eq_range']
    rfl
  · have hf := (sequencePool_facts (addLeaves l0 es).1 bk ts upOk).1 hsucc
    constructor
    · intro k hk
      rw [hf.1]
      unfold futureValue
      rw [htree]
      simp
    · rw [hf.2.1, hpool, htree]

theorem C2_index_assignment_witness :
    (emptyLog 0).currentPool = freshPool ∧
    (addLeaves (emptyLog 0) [c6Entry, c6Entry]).2 = List.range 2 ∧
    (addLeaves (emptyLog 0) [c6Entry, c6Entry]).1.currentPool.pendingLeaves =
      [c6Entry, c6Entry] ∧
    (sequencePool (addLeaves (emptyLog 0) [c6Entry, c6Entry]).1 noneBackend 1 allOk).err =
      none ∧
    (∀ k, k < 2 →
      futureValue
        (sequencePool (addLeaves (emptyLog 0) [c6Entry, c6Entry]).1 noneBackend 1 allOk).captured
        k = some ((emptyLog 0).tree.N + k)) ∧
    (sequencePool (addLeaves (emptyLog 0) [c6Entry, c6Entry]).1 noneBackend 1 allOk).log.tree.N =
      (emptyLog 0).tree.N + 2 :=
  have hc2 := C2_index_assignment (emptyLog 0) [c6Entry, c6Entry] noneBackend 1 allOk rfl
  have hsucc : (sequencePool (addLeaves (emptyLog 0) [c6Entry, c6Entry]).1
      noneBackend 1 allOk).err = none := by decide
  ⟨rfl, hc2.1, hc2.2.1, hsucc, (hc2.2.2 hsucc).1, (hc2.2.2 hsucc).2⟩

/-- Claim C9 (implicit): sequencing an empty pool still publishes.  If the
captured pool has no pending leaves, the wall clock advanced past
`tree.Time`, all uploads succeed and signing succeeds, the round succeeds:
it signs and uploads under `"sth"` a new STH with the same tree size and
root hash but the new, strictly larger timestamp, and closes the empty
pool's gate with `firstLeafIndex` equal to the unchanged size.  The
`treeHash` hypothesis states that the edge tiles reproduce the current
root, the standing consistency invariant of the log state. -/
theorem C9_empty_pool_publishes (l : LogState) (bk : Backend) (ts : Int) (upOk : TKey → Bool)
    (ck : Checkpoint)
    (hempty : l.currentPool.pendingLeaves = [])
    (hts : l.tree.Time < ts)
    (hup : ∀ k, upOk k = true)
    (hth : treeHash l.tree.N (hashReaderFn l.edgeTiles (fun _ => none)) = .ok l.tree.Hash)
    (hsign : signTreeHead l.name l.logID l.privKey
      { N := l.tree.N, Hash := l.tree.Hash, Time := ts } = .ok ck) :
    (sequencePool l bk ts upOk).err = none ∧
    (sequencePool l bk ts upOk).log.tree = { N := l.tree.N, Hash := l.tree.Hash, Time := ts } ∧
    (sequencePool l bk ts upOk).captured.done = true ∧
    (sequencePool l bk ts upOk).captured.firstLeafIndex = l.tree.N ∧
    (sequencePool l bk ts upOk).backend .sth = some (checkpointBytes ck) := by
  unfold sequencePool
  rw [if_neg (not_le.mpr hts), hempty]
  simp only [seqLoop]
  rw [seqPartial_n]
  dsimp only [seqInit]
  rw [newTiles_self]
  simp only [tilesPhase]
  unfold seqFinish
  rw [seqPartial_n, seqPartial_newHashes]
  dsimp only [seqInit]
  rw [uploadsOk_all _ _ hup]
  rw [if_neg (by decide : ¬(true = false))]
  rw [hth]
  dsimp only
  rw [hsign]
  dsimp only
  rw [if_pos (hup TKey.sth)]
  refine ⟨rfl, rfl, rfl, rfl, ?_⟩
  simp

theorem C9_empty_pool_publishes_witness :
    (emptyLog 0).currentPool.pendingLeaves = [] ∧
    (emptyLog 0).tree.Time < 1 ∧
    (∀ k, allOk k = true) ∧
    treeHash (emptyLog 0).tree.N (hashReaderFn (emptyLog 0).edgeTiles (fun _ => none)) =
      .ok (emptyLog 0).tree.Hash ∧
    signTreeHead (emptyLog 0).name (emptyLog 0).logID (emptyLog 0).privKey
      { N := (emptyLog 0).tree.N, Hash := (emptyLog 0).tree.Hash, Time := 1 } = .ok c9Ck ∧
    ((sequencePool (emptyLog 0) noneBackend 1 allOk).err = none ∧
     (sequencePool (emptyLog 0) noneBackend 1 allOk).log.tree =
       { N := (emptyLog 0).tree.N, Hash := (emptyLog 0).tree.Hash, Time := 1 } ∧
     (sequencePool (emptyLog 0) noneBackend 1 allOk).captured.done = true ∧
     (sequencePool (emptyLog 0) noneBackend 1 allOk).captured.firstLeafIndex =
       (emptyLog 0).tree.N ∧
     (sequencePool (emptyLog 0) noneBackend 1 allOk).backend .sth =
       some (checkpointBytes c9Ck)) :=
  ⟨rfl, by decide, fun _ => rfl, by decide, by decide,
   C9_empty_pool_publishes (emptyLog 0) noneBackend 1 allOk c9Ck rfl (by decide)
     (fun _ => rfl) (by decide) (by decide)⟩

/-- Claim C8: `LoadLog` fails whenever the checkpoint's origin differs
from the configured name, or the current time is earlier than the STH
timestamp, or the checkpoint carries a non-empty extension; when all
checks pass and the size is 0 it returns a log with tree size 0, the
checkpoint's hash and timestamp, and an empty edge-tile map. -/
theorem C8_LoadLog_validation (name : String) (logID : Bytes) (key : Signer)
    (c : ParsedCheckpoint) (timestamp now : Int)
    (rehydrate : Nat → Bytes → Except Unit (Int → Option tileWithBytes)) :
    ((c.origin ≠ name ∨ now < timestamp ∨ c.extension ≠ "") →
      ∃ e, LoadLog name logID key c timestamp now rehydrate = .error e) ∧
    (c.origin = name → ¬now < timestamp → c.extension = "" → c.n = 0 →
      LoadLog name logID key c timestamp now rehydrate =
        .ok { name := name, logID := logID, privKey := key,
              tree := { N := 0, Hash := c.hash, Time := timestamp },
              edgeTiles := fun _ => none, currentPool := freshPool }) := by
  constructor
  · intro hbad
    unfold LoadLog
    split_ifs with h1 h2 h3
    · exact ⟨_, rfl⟩
    · exact ⟨_, rfl⟩
    · exact ⟨_, rfl⟩
    · rcases hbad with h | h | h
      · exact absurd h h2
      · exact absurd h h1
      · exact absurd h h3
  · intro ho ht he hn
    unfold LoadLog
    rw [if_neg ht, if_neg (by simp [ho]), if_neg (by simp [he]), hn]

theorem C8_LoadLog_validation_witness :
    (c8Bad.origin ≠ "x" ∨ (0 : Int) < 0 ∨ c8Bad.extension ≠ "") ∧
    (∃ e, LoadLog "x" [] dummySigner c8Bad 0 0 c8Rehydrate = .error e) ∧
    (c8Good.origin = "x" ∧ ¬(0 : Int) < 0 ∧ c8Good.extension = "" ∧ c8Good.n = 0) ∧
    LoadLog "x" [] dummySigner c8Good 0 0 c8Rehydrate =
      .ok { name := "x", logID := [], privKey := dummySigner,
            tree := { N := 0, Hash := c8Good.hash, Time := 0 },
            edgeTiles := fun _ => none, currentPool := freshPool } :=
  ⟨Or.inl (by decide),
   (C8_LoadLog_validation "x" [] dummySigner c8Bad 0 0 c8Rehydrate).1 (Or.inl (by decide)),
   ⟨rfl, by decide, rfl, rfl⟩,
   (C8_LoadLog_validation "x" [] dummySigner c8Good 0 0 c8Rehydrate).2 rfl (by decide) rfl rfl⟩

/-- Claim C5 (code bug evaluation): `CreateLog` signs and uploads under
`"sth"` a checkpoint whose tree has size 0 and the current timestamp, but
whose root hash is the ALL-ZERO hash of the zero-value `tlog.Tree{}`,
which differs from the RFC 6962 empty-tree hash SHA-256 of the empty
string required by the claim. -/
theorem C5_CreateLog_zero_root_hash :
    ((CreateLog "" dummySigner noneBackend 5 allOk).map
      (fun r => ((r.1 .sth).isSome, r.2.n, r.2.time, r.2.treeHash)) =
      .ok (true, 0, 5, zeroHash)) ∧
    zeroHash ≠ sha256 [] := by
  constructor
  · decide
  · rw [sha256_empty]
    decide

/-! ## Stored-hash index arithmetic (towards C1) -/

theorem shiSumF_eq (n : Nat) : ∀ f, n ≤ f → shiSumF f n = shiSum n := by
  induction n using Nat.strong_induction_on with
  | _ n ih =>
    intro f hf
    match n, f with
    | 0, 0 => rfl
    | 0, f + 1 => rfl
    | m + 1, f + 1 =>
      show (if m + 1 = 0 then 0 else (m + 1) + shiSumF f ((m + 1) / 2)) = shiSum (m + 1)
      rw [if_neg (Nat.succ_ne_zero m)]
      have h1 : shiSumF f ((m + 1) / 2) = shiSum ((m + 1) / 2) :=
        ih ((m + 1) / 2) (by omega) f (by omega)
      have h2 : shiSumF m ((m + 1) / 2) = shiSum ((m + 1) / 2) :=
        ih ((m + 1) / 2) (by omega) m (by omega)
      show (m + 1) + shiSumF f ((m + 1) / 2) = shiSumF (m + 1) (m + 1)
      rw [h1]
      show _ = (if m + 1 = 0 then 0 else (m + 1) + shiSumF m ((m + 1) / 2))
      rw [if_neg (Nat.succ_ne_zero m), h2]

theorem shiSum_unfold (n : Nat) :
    shiSum n = if n = 0 then 0 else n + shiSum (n / 2) := by
  cases n with
  | zero => rfl
  | succ m =>
    rw [if_neg (Nat.succ_ne_zero m)]
    show shiSumF (m + 1) (m + 1) = _
    show (if m + 1 = 0 then 0 else (m + 1) + shiSumF m ((m + 1) / 2)) = _
    rw [if_neg (Nat.succ_ne_zero m), shiSumF_eq ((m + 1) / 2) m (by omega)]

theorem trailingOnesF_eq (n : Nat) : ∀ f, n ≤ f → trailingOnesF f n = trailingOnes n := by
  induction n using Nat.strong_induction_on with
  | _ n ih =>
    intro f hf
    match n, f with
    | 0, 0 => rfl
    | 0, f + 1 => rfl
    | m + 1, f + 1 =>
      show (if (m + 1) % 2 = 1 then 1 + trailingOnesF f ((m + 1) / 2) else 0) = _
      show _ = (if (m + 1) % 2 = 1 then 1 + trailingOnesF m ((m + 1) / 2) else 0)
      by_cases hpar : (m + 1) % 2 = 1
      · rw [if_pos hpar, if_pos hpar,
          ih ((m + 1) / 2) (by omega) f (by omega),
          ih ((m + 1) / 2) (by omega) m (by omega)]
      · rw [if_neg hpar, if_neg hpar]

theorem trailingOnes_unfold (n : Nat) :
    trailingOnes n = if n % 2 = 1 then 1 + trailingOnes (n / 2) else 0 := by
  cases n with
  | zero => rfl
  | succ m =>
    show (if (m + 1) % 2 = 1 then 1 + trailingOnesF m ((m + 1) / 2) else 0) = _
    by_cases hpar : (m + 1) % 2 = 1
    · rw [if_pos hpar, if_pos hpar, trailingOnesF_eq ((m + 1) / 2) m (by omega)]
    · rw [if_neg hpar, if_neg hpar]

theorem shiSum_succ (n : Nat) :
    shiSum (n + 1) = shiSum n + 1 + trailingOnes n := by
  induction n using Nat.strong_induction_on with
  | _ n ih =>
    by_cases hpar : n % 2 = 1
    · obtain ⟨m, rfl⟩ : ∃ m, n = 2 * m + 1 := ⟨n / 2, by omega⟩
      have h1 : shiSum (2 * m + 1 + 1) = (2 * m + 2) + shiSum (m + 1) := by
        rw [shiSum_unfold]
        rw [if_neg (by omega)]
        congr 2
        omega
      have h2 : shiSum (2 * m + 1) = (2 * m + 1) + shiSum m := by
        rw [shiSum_unfold]
        rw [if_neg (by omega)]
        congr 2
        omega
      have h3 : trailingOnes (2 * m + 1) = 1 + trailingOnes m := by
        rw [trailingOnes_unfold]
        rw [if_pos (by omega)]
        congr 2
        omega
      have h4 := ih m (by omega)
      omega
    · have h1 : shiSum (n + 1) = (n + 1) + shiSum (n / 2) := by
        rw [shiSum_unfold]
        rw [if_neg (by omega)]
        congr 2
        omega
      have h3 : trailingOnes n = 0 := by
        rw [trailingOnes_unfold, if_neg hpar]
      cases n with
      | zero =>
        norm_num at h1 ⊢
        omega
      | succ m =>
        have h2 : shiSum (m + 1) = (m + 1) + shiSum ((m + 1) / 2) := by
          rw [shiSum_unfold, if_neg (Nat.succ_ne_zero m)]
        omega

theorem shiSum_strictMono {n m : Nat} (h : n < m) : shiSum n < shiSum m := by
  induction m with
  | zero => omega
  | succ k ih =>
    rw [shiSum_succ]
    rcases Nat.lt_succ_iff_lt_or_eq.mp h with h2 | h2
    · have := ih h2
      omega
    · subst h2
      omega

theorem shiSum_mono {n m : Nat} (h : n ≤ m) : shiSum n ≤ shiSum m := by
  rcases Nat.lt_or_ge n m with h2 | h2
  · exact Nat.le_of_lt (shiSum_strictMono h2)
  · have : n = m := by omega
    subst this
    exact Nat.le_refl _

theorem shiSum_ge (n : Nat) : n ≤ shiSum n := by
  cases n with
  | zero => exact Nat.zero_le _
  | succ m =>
    rw [shiSum_unfold, if_neg (Nat.succ_ne_zero m)]
    omega

theorem splitLoop_reach (i : Nat) : ∀ f n0, n0 ≤ i → i - n0 ≤ f →
    splitLoop f n0 (shiSum i) = i := by
  intro f
  induction f with
  | zero =>
    intro n0 h1 h2
    have : n0 = i := by omega
    subst this
    rfl
  | succ f ih =>
    intro n0 h1 h2
    show (if shiSum (n0 + 1) ≤ shiSum i then splitLoop f (n0 + 1) (shiSum i) else n0) = i
    by_cases hle : n0 + 1 ≤ i
    · rw [if_pos (shiSum_mono hle)]
      exact ih (n0 + 1) hle (by omega)
    · have hni : n0 = i := by omega
      have hlt : shiSum i < shiSum (n0 + 1) := shiSum_strictMono (by omega)
      rw [if_neg (by omega)]
      exact hni

theorem shiSum_le_double (n : Nat) : shiSum n ≤ 2 * n := by
  induction n using Nat.strong_induction_on with
  | _ n ih =>
    cases n with
    | zero => decide
    | succ m =>
      rw [shiSum_unfold, if_neg (Nat.succ_ne_zero m)]
      have := ih ((m + 1) / 2) (by omega)
      omega

theorem split_shiSum (i : Nat) : splitStoredHashIndex (shiSum i) = (0, i) := by
  unfold splitStoredHashIndex
  have h1 : shiSum i / 2 ≤ i := by
    have h2 := shiSum_le_double i
    omega
  have h2 : i - shiSum i / 2 ≤ shiSum i := by
    have := shiSum_ge i
    omega
  rw [splitLoop_reach i (shiSum i) (shiSum i / 2) h1 h2]
  simp

theorem storedHashIndex_zero (i : Nat) : storedHashIndex 0 i = shiSum i := rfl

/-! ## Level-0 tile reading lemmas -/

theorem tileForIndex_L0 (i : Nat) :
    tileForIndex tileHeight (shiSum i) =
      { H := tileHeight, L := 0, N := i / 1024, W := i % 1024 + 1 } := by
  unfold tileForIndex
  rw [split_shiSum]
  simp [tileHeight, Nat.shiftLeft_eq, Nat.shiftRight_eq_div_pow]

theorem beBytes_length (w v : Nat) : (beBytes w v).length = w := by
  induction w generalizing v with
  | zero => rfl
  | succ k ih => simp [beBytes, ih]

theorem shaRound_length (st : List Nat) (ki wi : Nat) :
    (shaRound st ki wi).length = st.length := by
  unfold shaRound
  split <;> simp

theorem shaFold_length (l : List (Nat × Nat)) : ∀ (hs : List Nat),
    (l.foldl (fun st kw => shaRound st kw.1 kw.2) hs).length = hs.length := by
  induction l with
  | nil => intro hs; rfl
  | cons kw l ih =>
    intro hs
    show (l.foldl _ (shaRound hs kw.1 kw.2)).length = _
    rw [ih, shaRound_length]

theorem compressBlock_length (hs block : List Nat) :
    (compressBlock hs block).length = hs.length := by
  unfold compressBlock
  rw [List.length_map, List.length_zip, shaFold_length]
  omega

theorem compressFold_length (blocks : List (List Nat)) : ∀ (hs : List Nat),
    (blocks.foldl compressBlock hs).length = hs.length := by
  induction blocks with
  | nil => intro hs; rfl
  | cons b blocks ih =>
    intro hs
    show (blocks.foldl compressBlock (compressBlock hs b)).length = _
    rw [ih, compressBlock_length]

theorem sha256_length (msg : Bytes) : (sha256 msg).length = 32 := by
  unfold sha256
  have hlen : ∀ (l : List Nat), ((l.map (beBytes 4)).flatten).length = 4 * l.length := by
    intro l
    induction l with
    | nil => rfl
    | cons x l ih =>
      simp only [List.map_cons, List.flatten_cons, List.length_append, ih,
        beBytes_length, List.length_cons]
      omega
  rw [hlen, compressFold_length]
  rfl

theorem recordHash_length (data : Bytes) : (recordHash data).length = 32 :=
  sha256_length _

theorem hashFromTile_L0 (tN W : Nat) (data : Bytes) (i : Nat)
    (hW1 : 1 ≤ W) (hW2 : W ≤ 1024) (hlen : data.length = W * 32)
    (htN : i / 1024 = tN) (hoff : i % 1024 < W) :
    hashFromTile { H := tileHeight, L := 0, N := tN, W := W } data (shiSum i) =
      .ok ((chunkList 32 data).getD (i % 1024) zeroHash) := by
  unfold hashFromTile
  dsimp only
  rw [tileForIndex_L0]
  split_ifs with h1 h2 h3
  · exfalso
    rcases h1 with h | h | h | h | h | h
    · norm_num [tileHeight] at h
    · norm_num [tileHeight] at h
    · norm_num at h
    · norm_num at h
    · omega
    · simp only [tileHeight] at h
      norm_num at h
      omega
  · exact absurd h2 (by omega)
  · rw [split_shiSum]
    show Except.ok ((chunkList 32 data).getD (i % 1024 + 1 - 1) zeroHash) = _
    norm_num
  · exact absurd ⟨rfl, htN, show i % 1024 + 1 ≤ W by omega⟩ h3

theorem chunkListF_congr (w : Nat) (hw : 0 < w) : ∀ (f g : Nat) (bs : List Nat),
    bs.length ≤ f → bs.length ≤ g → chunkListF w f bs = chunkListF w g bs := by
  intro f
  induction f with
  | zero =>
    intro g bs h1 _
    have : bs = [] := List.length_eq_zero.mp (by omega)
    subst this
    cases g <;> rfl
  | succ f ih =>
    intro g bs h1 h2
    cases bs with
    | nil => cases g <;> rfl
    | cons x xs =>
      cases g with
      | zero => simp at h2
      | succ g =>
        show ((x :: xs).take w) :: chunkListF w f ((x :: xs).drop w) =
          ((x :: xs).take w) :: chunkListF w g ((x :: xs).drop w)
        have hd : ((x :: xs).drop w).length ≤ f := by
          rw [List.length_drop, List.length_cons]
          rw [List.length_cons] at h1
          omega
        have hd2 : ((x :: xs).drop w).length ≤ g := by
          rw [List.length_drop, List.length_cons]
          rw [List.length_cons] at h2
          omega
        rw [ih g _ hd hd2]

theorem chunkList_cons (w : Nat) (hw : 0 < w) (bs : List Nat) (hbs : bs ≠ []) :
    chunkList w bs = bs.take w :: chunkList w (bs.drop w) := by
  cases bs with
  | nil => exact absurd rfl hbs
  | cons x xs =>
    show chunkListF w (xs.length + 1) (x :: xs) = _
    show ((x :: xs).take w) :: chunkListF w xs.length ((x :: xs).drop w) = _
    have hL : ((x :: xs).drop w).length = xs.length + 1 - w := by
      rw [List.length_drop, List.length_cons]
    rw [chunkListF_congr w hw xs.length ((x :: xs).drop w).length ((x :: xs).drop w)
      (by omega) (Nat.le_refl _)]
    rfl

theorem chunkList_flatten : ∀ (hs : List Bytes), (∀ h ∈ hs, h.length = 32) →
    chunkList 32 hs.flatten = hs := by
  intro hs
  induction hs with
  | nil => intro _; rfl
  | cons hd tl ih =>
    intro h32
    have hhd : hd.length = 32 := h32 hd (by simp)
    have hne : hd ++ tl.flatten ≠ [] := by
      intro hcon
      have := congrArg List.length hcon
      simp [hhd] at this
    rw [List.flatten_cons, chunkList_cons 32 (by omega) _ hne]
    have ht : (hd ++ tl.flatten).take 32 = hd := by
      rw [← hhd]
      exact List.take_left hd tl.flatten
    have hd' : (hd ++ tl.flatten).drop 32 = tl.flatten := by
      rw [← hhd]
      exact List.drop_left hd tl.flatten
    rw [ht, hd', ih (fun h hm => h32 h (by simp [hm]))]

theorem flatten_length_32 : ∀ (hs : List Bytes), (∀ h ∈ hs, h.length = 32) →
    hs.flatten.length = hs.length * 32 := by
  intro hs
  induction hs with
  | nil => intro _; rfl
  | cons hd tl ih =>
    intro h32
    simp only [List.flatten_cons, List.length_append, List.length_cons]
    rw [ih (fun h hm => h32 h (by simp [hm])), h32 hd (by simp)]
    omega

/-! ## Generic list helpers -/

theorem getD_drop {α : Type} (l : List α) (k j : Nat) (d : α) :
    (l.drop k).getD j d = l.getD (k + j) d := by
  rw [List.getD_eq_getElem?_getD, List.getElem?_drop, List.getD_eq_getElem?_getD]

theorem getD_map_lt {α β : Type} (f : α → β) (l : List α) (j : Nat) (hj : j < l.length)
    (d : α) (e : β) : (l.map f).getD j e = f (l.getD j d) := by
  rw [List.getD_eq_getElem _ _ (by simpa using hj), List.getElem_map,
    List.getD_eq_getElem _ _ hj]

theorem getD_mem {α : Type} (l : List α) (j : Nat) (hj : j < l.length) (d : α) :
    l.getD j d ∈ l := by
  rw [List.getD_eq_getElem _ _ hj]
  exact List.getElem_mem _

theorem get?_some_getD {α : Type} (l : List α) (k : Nat) (a d : α) (h : l.get? k = some a) :
    k < l.length ∧ l.getD k d = a := by
  obtain ⟨hk, hget⟩ := List.get?_eq_some.mp h
  refine ⟨hk, ?_⟩
  rw [List.getD_eq_getElem _ _ hk, ← hget]
  simp [List.get_eq_getElem]

theorem ext_getD {α : Type} (l₁ l₂ : List α) (d : α) (hlen : l₁.length = l₂.length)
    (h : ∀ j, j < l₁.length → l₁.getD j d = l₂.getD j d) : l₁ = l₂ := by
  refine List.ext_get hlen (fun n h₁ h₂ => ?_)
  have := h n h₁
  rw [List.getD_eq_getElem _ _ h₁, List.getD_eq_getElem _ _ h₂] at this
  simpa [List.get_eq_getElem] using this

theorem forall₂_append_split {α β : Type} {R : α → β → Prop} :
    ∀ (A : List α) (B : List α) (us : List β), List.Forall₂ R (A ++ B) us →
      ∃ uA uB, us = uA ++ uB ∧ List.Forall₂ R A uA ∧ List.Forall₂ R B uB := by
  intro A
  induction A with
  | nil => intro B us h; exact ⟨[], us, rfl, List.Forall₂.nil, h⟩
  | cons a A ih =>
    intro B us h
    cases h with
    | cons hab h' =>
      obtain ⟨uA, uB, rfl, h1, h2⟩ := ih B _ h'
      exact ⟨_ :: uA, uB, rfl, List.Forall₂.cons hab h1, h2⟩

theorem forall₂_mem_right {α β : Type} {R : α → β → Prop} :
    ∀ (l₁ : List α) (l₂ : List β), List.Forall₂ R l₁ l₂ → ∀ b ∈ l₂, ∃ a ∈ l₁, R a b := by
  intro l₁
  induction l₁ with
  | nil =>
    intro l₂ h b hb
    rw [List.forall₂_nil_left_iff.mp h] at hb
    simp at hb
  | cons a l ih =>
    intro l₂ h b hb
    cases h with
    | cons hab h' =>
      rcases List.mem_cons.mp hb with rfl | hb'
      · exact ⟨a, by simp, hab⟩
      · obtain ⟨a', ha', hr⟩ := ih _ h' b hb'
        exact ⟨a', by simp [ha'], hr⟩

/-! ## mapM characterisation and `ReadTileData` reads -/

theorem mapM_ok_forall2 {ε α β : Type} (f : α → Except ε β) :
    ∀ (l : List α) (bs : List β), l.mapM f = .ok bs →
      List.Forall₂ (fun a b => f a = .ok b) l bs := by
  intro l
  induction l with
  | nil =>
    intro bs h
    rw [← List.mapM'_eq_mapM] at h
    cases h
    exact List.Forall₂.nil
  | cons a l ih =>
    intro bs h
    rw [← List.mapM'_eq_mapM] at h
    cases hfa : f a with
    | error e =>
      rw [show List.mapM' f (a :: l) = f a >>= fun b => (List.mapM' f l >>= fun t => pure (b :: t)) from rfl,
        hfa] at h
      simp [Bind.bind, Except.bind] at h
    | ok b =>
      rw [show List.mapM' f (a :: l) = f a >>= fun b => (List.mapM' f l >>= fun t => pure (b :: t)) from rfl,
        hfa] at h
      cases hml : List.mapM' f l with
      | error e =>
        rw [hml] at h
        simp [Bind.bind, Except.bind] at h
      | ok t =>
        rw [hml] at h
        simp only [Bind.bind, Except.bind, pure, Except.pure] at h
        cases h
        rw [List.mapM'_eq_mapM] at hml
        exact List.Forall₂.cons hfa (ih t hml)

theorem forall₂_getD {α β : Type} {R : α → β → Prop} (l₁ : List α) (l₂ : List β)
    (h : List.Forall₂ R l₁ l₂) (j : Nat) (hj : j < l₁.length) (d₁ : α) (d₂ : β) :
    R (l₁.getD j d₁) (l₂.getD j d₂) := by
  have hlen := h.length_eq
  have h2 := (List.forall₂_iff_get.mp h).2 j hj (by omega)
  rw [List.getD_eq_getElem _ _ hj, List.getD_eq_getElem _ _ (by omega)]
  simpa [List.get_eq_getElem] using h2

theorem readTileData_ok (t : Tile) (r : Nat → Except ReadErr Bytes) (data : Bytes)
    (h : readTileData t r = .ok data) :
    ∃ hs : List Bytes, data = hs.flatten ∧ hs.length = t.W ∧
      ∀ j, j < t.W →
        r (storedHashIndex (t.H * t.L.toNat) (t.N <<< t.H + j)) = .ok (hs.getD j zeroHash) := by
  unfold readTileData at h
  cases hm : (List.range t.W).mapM
      (fun i => r (storedHashIndex (t.H * t.L.toNat) (t.N <<< t.H + i))) with
  | error e => rw [hm] at h; cases h
  | ok hs =>
    rw [hm] at h
    cases h
    have h2 := mapM_ok_forall2 _ _ _ hm
    have hlen : hs.length = t.W := by
      have := h2.length_eq
      simpa using this.symm
    refine ⟨hs, rfl, hlen, fun j hj => ?_⟩
    have := forall₂_getD _ _ h2 j (by simpa using hj) 0 zeroHash
    rwa [List.getD_eq_getElem _ _ (by simpa using hj), List.getElem_range] at this

/-! ## Stored-hash batches and the overlay writes -/

theorem storedHashesGo_spec (n : Nat) (r : Nat → Except ReadErr Bytes) :
    ∀ (k i : Nat) (h : Bytes) (acc out : List Bytes),
      storedHashesGo n r k i h acc = .ok out →
      ∃ extra, out = acc ++ extra ∧ extra.length = k := by
  intro k
  induction k with
  | zero =>
    intro i h acc out hgo
    cases hgo
    exact ⟨[], by simp, rfl⟩
  | succ k ih =>
    intro i h acc out hgo
    unfold storedHashesGo at hgo
    cases hr : r (storedHashIndex i ((n >>> i) - 1)) with
    | error e => rw [hr] at hgo; cases hgo
    | ok old =>
      rw [hr] at hgo
      simp only at hgo
      obtain ⟨extra, hout, hlen⟩ := ih _ _ _ _ hgo
      exact ⟨nodeHash old h :: extra, by simp [hout], by simp [hlen]⟩

theorem storedHashes_spec (n : Nat) (data : Bytes) (r : Nat → Except ReadErr Bytes)
    (hashes : List Bytes) (h : storedHashes n data r = .ok hashes) :
    hashes.length = 1 + trailingOnes n ∧ hashes.getD 0 zeroHash = recordHash data := by
  unfold storedHashes storedHashesForRecordHash at h
  obtain ⟨extra, hout, hlen⟩ := storedHashesGo_spec n r _ 0 _ _ _ h
  subst hout
  exact ⟨by simp [hlen]; omega, rfl⟩

theorem writeHashes_lt (hs : List Bytes) : ∀ (m : Nat → Option Bytes) (base id : Nat),
    id < base → writeHashes m base hs id = m id := by
  induction hs with
  | nil => intro m base id _; rfl
  | cons h t ih =>
    intro m base id hid
    show writeHashes _ (base + 1) t id = m id
    rw [ih _ (base + 1) id (by omega)]
    rw [if_neg (by omega)]

theorem writeHashes_ge (hs : List Bytes) : ∀ (m : Nat → Option Bytes) (base id : Nat),
    base + hs.length ≤ id → writeHashes m base hs id = m id := by
  induction hs with
  | nil => intro m base id _; rfl
  | cons h t ih =>
    intro m base id hid
    rw [List.length_cons] at hid
    show writeHashes _ (base + 1) t id = m id
    rw [ih _ (base + 1) id (by omega)]
    rw [if_neg (by omega)]

theorem writeHashes_at (hs : List Bytes) (hne : hs ≠ []) (m : Nat → Option Bytes) (base : Nat) :
    writeHashes m base hs base = some (hs.getD 0 zeroHash) := by
  cases hs with
  | nil => exact absurd rfl hne
  | cons h t =>
    show writeHashes _ (base + 1) t base = _
    rw [writeHashes_lt t _ (base + 1) base (by omega)]
    rw [if_pos rfl]
    rfl

/-- The per-leaf loop, characterised: the leaf count advances by the
number of leaves, overlay entries below the starting position are
untouched, the level-0 slot of the `k`-th leaf holds the record hash of
its Merkle tree leaf, all scheduled uploads are data tiles (level `-1`),
and no edge-tile level other than `-1` changes. -/
theorem seqLoop_overlay (l : LogState) (ts : Int) :
    ∀ (leaves : List logEntry) (st st1 : LoopSt),
      seqLoop l ts leaves st = .ok st1 →
      st1.n = st.n + leaves.length ∧
      (∀ id, id < shiSum st.n → st1.newHashes id = st.newHashes id) ∧
      (∀ k, k < leaves.length →
        st1.newHashes (shiSum (st.n + k)) =
          some (recordHash ((leaves.getD k dummyEntry).merkleTreeLeaf ts))) ∧
      (∃ extra, st1.uploads = st.uploads ++ extra ∧
        ∀ u ∈ extra, ∃ nn ww, u.1 = TKey.tileKey tileHeight (-1) nn ww) ∧
      (∀ lvl, lvl ≠ -1 → st1.edgeTiles lvl = st.edgeTiles lvl) := by
  intro leaves
  induction leaves with
  | nil =>
    intro st st1 h
    cases h
    exact ⟨by simp, fun _ _ => rfl, fun k hk => by simp at hk,
      ⟨[], by simp, by simp⟩, fun _ _ => rfl⟩
  | cons leaf rest ih =>
    intro st st1 h
    unfold seqLoop at h
    cases hsh : storedHashes st.n (leaf.merkleTreeLeaf ts)
        (hashReaderFn l.edgeTiles st.newHashes) with
    | error e => rw [hsh] at h; cases h
    | ok hashes =>
      rw [hsh] at h
      simp only at h
      have hspec := storedHashes_spec _ _ _ _ hsh
      have hne : hashes ≠ [] := by
        intro hcon
        rw [hcon] at hspec
        simp at hspec
        omega
      have hsucc := shiSum_succ st.n
      rw [show storedHashIndex 0 st.n = shiSum st.n from rfl] at h
      split at h
      case isTrue hcond =>
        obtain ⟨ih1, ih2, ih3, ⟨extra, hup, hupkeys⟩, ih5⟩ := ih _ _ h
        simp only at ih1 ih2 ih3 hup ih5
        refine ⟨by rw [ih1]; simp; omega, ?_, ?_, ?_, ?_⟩
        · intro id hid
          rw [ih2 id (by have := shiSum_mono (show st.n ≤ st.n + 1 by omega); omega)]
          rw [writeHashes_lt _ _ _ _ hid]
        · intro k hk
          match k with
          | 0 =>
            rw [ih2 (shiSum (st.n + 0)) (by simp; have := shiSum_strictMono (show st.n < st.n + 1 by omega); omega)]
            simp only [Nat.add_zero]
            rw [writeHashes_at _ hne]
            rw [hspec.2]
            rfl
          | k + 1 =>
            have h3 := ih3 k (by simpa using hk)
            rw [show st.n + 1 + k = st.n + (k + 1) by omega] at h3
            rw [h3]
            rfl
        · refine ⟨_, by rw [hup, List.append_assoc], ?_⟩
          intro u hu
          rcases List.mem_append.mp hu with hu1 | hu2
          · simp at hu1
            subst hu1
            exact ⟨_, _, rfl⟩
          · exact hupkeys u hu2
        · intro lvl hl
          rw [ih5 lvl hl]
          show updateEdge _ (-1) _ lvl = _
          unfold updateEdge
          rw [if_neg hl]
      case isFalse hcond =>
        obtain ⟨ih1, ih2, ih3, ⟨extra, hup, hupkeys⟩, ih5⟩ := ih _ _ h
        simp only at ih1 ih2 ih3 hup ih5
        refine ⟨by rw [ih1]; simp; omega, ?_, ?_, ⟨extra, hup, hupkeys⟩, ih5⟩
        · intro id hid
          rw [ih2 id (by have := shiSum_mono (show st.n ≤ st.n + 1 by omega); omega)]
          rw [writeHashes_lt _ _ _ _ hid]
        · intro k hk
          match k with
          | 0 =>
            rw [ih2 (shiSum (st.n + 0)) (by simp; have := shiSum_strictMono (show st.n < st.n + 1 by omega); omega)]
            simp only [Nat.add_zero]
            rw [writeHashes_at _ hne]
            rw [hspec.2]
            rfl
          | k + 1 =>
            have h3 := ih3 k (by simpa using hk)
            rw [show st.n + 1 + k = st.n + (k + 1) by omega] at h3
            rw [h3]
            rfl

/-- A failed per-leaf loop only ever scheduled data-tile (level `-1`)
uploads on top of the starting state's. -/
theorem seqLoop_err (l : LogState) (ts : Int) :
    ∀ (leaves : List logEntry) (st : LoopSt) (e : SeqErr) (st' : LoopSt),
      seqLoop l ts leaves st = .error (e, st') →
      ∃ extra, st'.uploads = st.uploads ++ extra ∧
        ∀ u ∈ extra, ∃ nn ww, u.1 = TKey.tileKey tileHeight (-1) nn ww := by
  intro leaves
  induction leaves with
  | nil =>
    intro st e st' h
    cases h
  | cons leaf rest ih =>
    intro st e st' h
    unfold seqLoop at h
    cases hsh : storedHashes st.n (leaf.merkleTreeLeaf ts)
        (hashReaderFn l.edgeTiles st.newHashes) with
    | error e2 =>
      rw [hsh] at h
      simp only at h
      cases h
      exact ⟨[], by simp, by simp⟩
    | ok hashes =>
      rw [hsh] at h
      simp only at h
      split at h
      case isTrue hcond =>
        obtain ⟨extra, hup, hupkeys⟩ := ih _ _ _ h
        refine ⟨_, by rw [hup, List.append_assoc], ?_⟩
        intro u hu
        rcases List.mem_append.mp hu with hu1 | hu2
        · simp at hu1
          subst hu1
          exact ⟨_, _, rfl⟩
        · exact hupkeys u hu2
      case isFalse hcond =>
        obtain ⟨extra, hup, hupkeys⟩ := ih _ _ _ h
        exact ⟨extra, hup, hupkeys⟩

/-- `updateEdgeIf` leaves untouched levels unchanged. -/
theorem updateEdgeIf_ne (e : Int → Option tileWithBytes) (tile : Tile) (data : Bytes)
    (lvl : Int) (h : tile.L ≠ lvl) : updateEdgeIf e tile data lvl = e lvl := by
  unfold updateEdgeIf
  cases he : e tile.L with
  | none =>
    show updateEdge e tile.L _ lvl = e lvl
    unfold updateEdge
    rw [if_neg (fun hh => h hh.symm)]
  | some t =>
    show (if t.tile.N < tile.N ∨ (t.tile.N = tile.N ∧ t.tile.W < tile.W) then
        updateEdge e tile.L { tile := tile, B := data } else e) lvl = e lvl
    by_cases hc : t.tile.N < tile.N ∨ (t.tile.N = tile.N ∧ t.tile.W < tile.W)
    · rw [if_pos hc]
      unfold updateEdge
      rw [if_neg (fun hh => h hh.symm)]
    · rw [if_neg hc]

/-- At level 0, `updateEdgeIf` either keeps the entry or installs the
offered tile. -/
theorem updateEdgeIf_zero (e : Int → Option tileWithBytes) (tile : Tile) (data : Bytes)
    (h0 : tile.L = 0) :
    updateEdgeIf e tile data 0 = e 0 ∨ updateEdgeIf e tile data 0 = some ⟨tile, data⟩ := by
  unfold updateEdgeIf
  cases he : e tile.L with
  | none =>
    right
    show updateEdge e tile.L _ 0 = _
    unfold updateEdge
    rw [h0, if_pos rfl]
  | some t =>
    show ((if t.tile.N < tile.N ∨ (t.tile.N = tile.N ∧ t.tile.W < tile.W) then
        updateEdge e tile.L { tile := tile, B := data } else e) 0 = e 0) ∨
      ((if t.tile.N < tile.N ∨ (t.tile.N = tile.N ∧ t.tile.W < tile.W) then
          updateEdge e tile.L { tile := tile, B := data } else e) 0 =
        some { tile := tile, B := data })
    by_cases hc : t.tile.N < tile.N ∨ (t.tile.N = tile.N ∧ t.tile.W < tile.W)
    · right
      rw [if_pos hc]
      unfold updateEdge
      rw [h0, if_pos rfl]
    · left
      rw [if_neg hc]

/-- At level 0, a strictly newer-or-wider tile always replaces the
current entry. -/
theorem updateEdgeIf_install (e : Int → Option tileWithBytes) (tile : Tile) (data : Bytes)
    (h0 : tile.L = 0)
    (hbeat : ∀ t0, e 0 = some t0 →
      t0.tile.N < tile.N ∨ (t0.tile.N = tile.N ∧ t0.tile.W < tile.W)) :
    updateEdgeIf e tile data 0 = some ⟨tile, data⟩ := by
  unfold updateEdgeIf
  rw [h0]
  cases he : e 0 with
  | none =>
    show updateEdge e 0 _ 0 = _
    unfold updateEdge
    rw [if_pos rfl]
  | some t =>
    show (if t.tile.N < tile.N ∨ (t.tile.N = tile.N ∧ t.tile.W < tile.W) then
        updateEdge e 0 { tile := tile, B := data } else e) 0 = _
    rw [if_pos (hbeat t he)]
    unfold updateEdge
    rw [if_pos rfl]

/-- Splitting a successful tile phase at a list split. -/
theorem tilesPhase_split (l : LogState) :
    ∀ (A B : List Tile) (st st2 : LoopSt),
      tilesPhase l (A ++ B) st = .ok st2 →
      ∃ stm, tilesPhase l A st = .ok stm ∧ tilesPhase l B stm = .ok st2 := by
  intro A
  induction A with
  | nil =>
    intro B st st2 h
    exact ⟨st, rfl, h⟩
  | cons t A ih =>
    intro B st st2 h
    rw [List.cons_append] at h
    unfold tilesPhase at h
    cases hm : readTileData t (hashReaderFn l.edgeTiles st.newHashes) with
    | error e => rw [hm] at h; cases h
    | ok data =>
      rw [hm] at h
      simp only at h
      obtain ⟨stm, h1, h2⟩ := ih B _ st2 h
      refine ⟨stm, ?_, h2⟩
      unfold tilesPhase
      rw [hm]
      simp only
      exact h1

/-- A successful tile phase, characterised: counters and overlay are
unchanged, each tile is uploaded under its path with its materialised
data, untouched edge-tile levels are unchanged, and the level-0 edge
tile either survives or is one of the processed level-0 tiles. -/
theorem tilesPhase_spec (l : LogState) :
    ∀ (tiles : List Tile) (st st2 : LoopSt),
      tilesPhase l tiles st = .ok st2 →
      st2.n = st.n ∧ st2.newHashes = st.newHashes ∧
      (∃ ups, st2.uploads = st.uploads ++ ups ∧
        List.Forall₂ (fun t u => u.1 = t.path ∧
          readTileData t (hashReaderFn l.edgeTiles st.newHashes) = .ok u.2) tiles ups) ∧
      (∀ lvl, (∀ t ∈ tiles, (t.L : Int) ≠ lvl) → st2.edgeTiles lvl = st.edgeTiles lvl) ∧
      (st2.edgeTiles 0 = st.edgeTiles 0 ∨
        ∃ t, t ∈ tiles ∧ t.L = 0 ∧ ∃ d, st2.edgeTiles 0 = some ⟨t, d⟩) := by
  intro tiles
  induction tiles with
  | nil =>
    intro st st2 h
    cases h
    exact ⟨rfl, rfl, ⟨[], by simp, List.Forall₂.nil⟩, fun _ _ => rfl, Or.inl rfl⟩
  | cons t rest ih =>
    intro st st2 h
    unfold tilesPhase at h
    cases hm : readTileData t (hashReaderFn l.edgeTiles st.newHashes) with
    | error e => rw [hm] at h; cases h
    | ok data =>
      rw [hm] at h
      simp only at h
      obtain ⟨ih1, ih2, ⟨ups, hup, hF⟩, ih4, ih5⟩ := ih _ _ h
      simp only at ih1 ih2 hup ih4 ih5
      refine ⟨ih1, ih2, ?_, ?_, ?_⟩
      · refine ⟨_, by rw [hup, List.append_assoc], ?_⟩
        exact List.Forall₂.cons ⟨rfl, hm⟩ hF
      · intro lvl hl
        rw [ih4 lvl (fun t' ht' => hl t' (by simp [ht']))]
        exact updateEdgeIf_ne _ _ _ _ (hl t (by simp))
      · rcases ih5 with h5 | ⟨t', ht', hL', d, hd⟩
        · rw [h5]
          by_cases hL : t.L = 0
          · rcases updateEdgeIf_zero st.edgeTiles t data hL with h6 | h6
            · exact Or.inl h6
            · exact Or.inr ⟨t, by simp, hL, data, h6⟩
          · exact Or.inl (updateEdgeIf_ne _ _ _ _ (by simpa using hL))
        · exact Or.inr ⟨t', by simp [ht'], hL', d, hd⟩

/-- A failed tile phase only scheduled uploads for tiles of its list. -/
theorem tilesPhase_err (l : LogState) :
    ∀ (tiles : List Tile) (st : LoopSt) (e : SeqErr) (st' : LoopSt),
      tilesPhase l tiles st = .error (e, st') →
      ∃ ups, st'.uploads = st.uploads ++ ups ∧
        ∀ u ∈ ups, ∃ t ∈ tiles, u.1 = t.path := by
  intro tiles
  induction tiles with
  | nil =>
    intro st e st' h
    cases h
  | cons t rest ih =>
    intro st e st' h
    unfold tilesPhase at h
    cases hm : readTileData t (hashReaderFn l.edgeTiles st.newHashes) with
    | error e2 =>
      rw [hm] at h
      simp only at h
      cases h
      exact ⟨[], by simp, by simp⟩
    | ok data =>
      rw [hm] at h
      simp only at h
      obtain ⟨ups, hup, hkeys⟩ := ih _ _ _ h
      refine ⟨_, by rw [hup, List.append_assoc], ?_⟩
      intro u hu
      rcases List.mem_append.mp hu with hu1 | hu2
      · simp at hu1
        subst hu1
        exact ⟨t, by simp, rfl⟩
      · obtain ⟨t', ht', hu'⟩ := hkeys u hu2
        exact ⟨t', by simp [ht'], hu'⟩

/-- The partial-data-tile step only adds a data-tile (level `-1`) upload
and only touches edge level `-1`. -/
theorem seqPartial_facts (st1 : LoopSt) :
    (∃ ex, (seqPartial st1).uploads = st1.uploads ++ ex ∧
      ∀ u ∈ ex, ∃ nn ww, u.1 = TKey.tileKey tileHeight (-1) nn ww) ∧
    ∀ lvl, lvl ≠ -1 → (seqPartial st1).edgeTiles lvl = st1.edgeTiles lvl := by
  unfold seqPartial
  split
  · constructor
    · refine ⟨_, rfl, ?_⟩
      intro u hu
      simp at hu
      subst hu
      exact ⟨_, _, rfl⟩
    · intro lvl hl
      show updateEdge _ (-1) _ lvl = _
      unfold updateEdge
      rw [if_neg hl]
  · exact ⟨⟨[], by simp, by simp⟩, fun _ _ => rfl⟩

/-! ## Last-write-wins reading of the scheduled uploads -/

theorem lastVal_append (A B : List (TKey × Bytes)) (k : TKey) :
    lastVal (A ++ B) k =
      match lastVal B k with
      | some v => some v
      | none => lastVal A k := by
  induction A with
  | nil =>
    show lastVal B k = _
    cases lastVal B k <;> rfl
  | cons u A ih =>
    show (match lastVal (A ++ B) k with
      | some v => some v
      | none => if u.1 = k then some u.2 else none) = _
    rw [ih]
    cases hB : lastVal B k with
    | some v => rfl
    | none => rfl

theorem lastVal_none (ups : List (TKey × Bytes)) (k : TKey)
    (h : ∀ u ∈ ups, u.1 ≠ k) : lastVal ups k = none := by
  induction ups with
  | nil => rfl
  | cons u t ih =>
    show (match lastVal t k with
      | some v => some v
      | none => if u.1 = k then some u.2 else none) = none
    rw [ih (fun v hv => h v (by simp [hv]))]
    rw [if_neg (h u (by simp))]

theorem applyUploads_lastVal (ups : List (TKey × Bytes)) :
    ∀ (bk : Backend) (upOk : TKey → Bool) (k : TKey), uploadsOk ups upOk = true →
      applyUploads bk ups upOk k =
        match lastVal ups k with
        | some v => some v
        | none => bk k := by
  induction ups with
  | nil => intro bk upOk k _; rfl
  | cons u t ih =>
    intro bk upOk k hok
    unfold uploadsOk at hok
    rw [List.all_cons, Bool.and_eq_true] at hok
    show applyUploads _ t upOk k = _
    rw [ih _ _ _ hok.2]
    cases hL : lastVal t k with
    | some v =>
      show some v = (match lastVal (u :: t) k with | some v => some v | none => bk k)
      show some v = (match (match lastVal t k with
        | some v => some v
        | none => if u.1 = k then some u.2 else none) with | some v => some v | none => bk k)
      rw [hL]
    | none =>
      show (if upOk u.1 then fun kk => if kk = u.1 then some u.2 else bk kk else bk) k =
        (match (match lastVal t k with
          | some v => some v
          | none => if u.1 = k then some u.2 else none) with | some v => some v | none => bk k)
      rw [hL, if_pos hok.1]
      by_cases hk : k = u.1
      · rw [if_pos hk, if_pos hk.symm]
      · rw [if_neg hk, if_neg (fun hh => hk hh.symm)]

theorem applyUploads_nokey (ups : List (TKey × Bytes)) :
    ∀ (bk : Backend) (upOk : TKey → Bool) (k : TKey), (∀ u ∈ ups, u.1 ≠ k) →
      applyUploads bk ups upOk k = bk k := by
  induction ups with
  | nil => intro _ _ _ _; rfl
  | cons u t ih =>
    intro bk upOk k h
    show applyUploads _ t upOk k = bk k
    rw [ih _ _ _ (fun v hv => h v (by simp [hv]))]
    show (if upOk u.1 = true then fun kk => if kk = u.1 then some u.2 else bk kk else bk) k = bk k
    by_cases hok : upOk u.1 = true
    · rw [if_pos hok]
      show (if k = u.1 then some u.2 else bk k) = bk k
      rw [if_neg (fun hh => h u (by simp) hh.symm)]
    · rw [if_neg hok]

/-! ## The shape of `NewTiles` -/

theorem tilesAtLevel_L0 (N0 n : Nat) :
    tilesAtLevel tileHeight 0 N0 n =
      if N0 = n then []
      else
        (List.range' (N0 / 1024) (n / 1024 - N0 / 1024)).map
          (fun t => { H := tileHeight, L := 0, N := t, W := 1024 }) ++
        (if 0 < n % 1024 then
          [{ H := tileHeight, L := 0, N := n / 1024, W := n % 1024 }] else []) := by
  unfold tilesAtLevel
  simp only [Nat.mul_zero, Nat.shiftRight_zero, tileHeight, Nat.shiftRight_eq_div_pow,
    Nat.shiftLeft_eq, Nat.cast_zero]
  norm_num
  rw [show n - n / 1024 * 1024 = n % 1024 by omega]
  simp only [show (n / 1024 * 1024 < n) ↔ (0 < n % 1024) by omega]

theorem newTiles_decomp (N0 n : Nat) (hn : 0 < n) :
    newTiles tileHeight N0 n =
      tilesAtLevel tileHeight 0 N0 n ++
      ((List.range' 1 63).map (fun level =>
        if n >>> (tileHeight * level) > 0 then tilesAtLevel tileHeight level N0 n
        else [])).flatten := by
  unfold newTiles
  rw [List.range_eq_range', show (64 : Nat) = 63 + 1 from rfl, List.range'_succ]
  simp only [List.map_cons, List.flatten_cons]
  rw [if_pos]
  simpa using hn

theorem tilesAtLevel_mem (h level o s : Nat) (t : Tile) (ht : t ∈ tilesAtLevel h level o s) :
    t.L = (level : Int) ∧ t.H = h := by
  unfold tilesAtLevel at ht
  dsimp only at ht
  split at ht
  · simp at ht
  · rcases List.mem_append.mp ht with h1 | h1
    · obtain ⟨a, _, ha⟩ := List.exists_of_mem_map h1
      subst ha
      exact ⟨rfl, rfl⟩
    · split at h1
      · simp at h1
        subst h1
        exact ⟨rfl, rfl⟩
      · simp at h1

theorem newTiles_rest_L (N0 n : Nat) (t : Tile)
    (ht : t ∈ ((List.range' 1 63).map (fun level =>
      if n >>> (tileHeight * level) > 0 then tilesAtLevel tileHeight level N0 n
      else [])).flatten) :
    1 ≤ t.L ∧ t.H = tileHeight := by
  rw [List.mem_flatten] at ht
  obtain ⟨sub, hsub, htm⟩ := ht
  obtain ⟨level, hlevel, hs⟩ := List.exists_of_mem_map hsub
  subst hs
  rw [List.mem_range'_1] at hlevel
  split at htm
  · obtain ⟨hL, hH⟩ := tilesAtLevel_mem _ _ _ _ _ htm
    refine ⟨?_, hH⟩
    rw [hL]
    exact_mod_cast hlevel.1
  · simp at htm

/-- An error-free round decomposed into its stages: the loop, the tile
phase, the successful uploads and the published tree and store. -/
theorem sequencePool_success (l : LogState) (bk : Backend) (ts : Int) (upOk : TKey → Bool)
    (hok : (sequencePool l bk ts upOk).err = none) :
    ∃ st1 st2,
      seqLoop l ts l.currentPool.pendingLeaves (seqInit l) = .ok st1 ∧
      tilesPhase l (newTiles tileHeight l.tree.N (seqPartial st1).n) (seqPartial st1) = .ok st2 ∧
      uploadsOk st2.uploads upOk = true ∧
      (sequencePool l bk ts upOk).log.tree.N = st2.n ∧
      (sequencePool l bk ts upOk).log.edgeTiles = st2.edgeTiles ∧
      ∃ ckb, (sequencePool l bk ts upOk).backend =
        fun k => if k = TKey.sth then some ckb else applyUploads bk st2.uploads upOk k := by
  unfold sequencePool at hok ⊢
  by_cases hts : ts ≤ l.tree.Time
  · rw [if_pos hts] at hok
    simp at hok
  · rw [if_neg hts] at hok ⊢
    cases hsl : seqLoop l ts l.currentPool.pendingLeaves (seqInit l) with
    | error p =>
      obtain ⟨e, st⟩ := p
      try rw [hsl] at hok
      simp at hok
    | ok st1 =>
      try rw [hsl] at hok
      try rw [hsl]
      simp only at hok ⊢
      cases htp : tilesPhase l (newTiles tileHeight l.tree.N (seqPartial st1).n)
          (seqPartial st1) with
      | error p =>
        obtain ⟨e, st2⟩ := p
        try rw [htp] at hok
        simp at hok
      | ok st2 =>
        try rw [htp] at hok
        try rw [htp]
        simp only at hok ⊢
        refine ⟨st1, st2, rfl, htp, ?_⟩
        unfold seqFinish at hok ⊢
        split at hok
        · simp at hok
        next hup =>
          rw [if_neg hup]
          cases hth : treeHash st2.n (hashReaderFn l.edgeTiles st2.newHashes) with
          | error e =>
            try rw [hth] at hok
            simp at hok
          | ok rootHash =>
            try rw [hth] at hok
            try rw [hth]
            simp only at hok ⊢
            cases hsg : signTreeHead l.name l.logID l.privKey
                { N := st2.n, Hash := rootHash, Time := ts } with
            | error e =>
              try rw [hsg] at hok
              simp at hok
            | ok ck =>
              try rw [hsg] at hok
              try rw [hsg]
              simp only at hok ⊢
              split at hok
              · rename_i hsth
                rw [if_pos hsth]
                exact ⟨by simpa using hup, rfl, rfl, checkpointBytes ck, rfl⟩
              · simp at hok

/-- A failed round's store is the old store plus some accepted uploads,
each of which is either a data tile (level `-1`) or one of the round's
new hash tiles. -/
theorem sequencePool_err_uploads (l : LogState) (bk : Backend) (ts : Int) (upOk : TKey → Bool)
    (herr : (sequencePool l bk ts upOk).err ≠ none) :
    ∃ ups, (sequencePool l bk ts upOk).backend = applyUploads bk ups upOk ∧
      ∀ u ∈ ups, (∃ nn ww, u.1 = TKey.tileKey tileHeight (-1) nn ww) ∨
        (∃ t, t ∈ newTiles tileHeight l.tree.N
            (l.tree.N + l.currentPool.pendingLeaves.length) ∧ u.1 = t.path) := by
  unfold sequencePool at herr ⊢
  by_cases hts : ts ≤ l.tree.Time
  · rw [if_pos hts]
    exact ⟨[], rfl, by simp⟩
  · rw [if_neg hts] at herr ⊢
    cases hsl : seqLoop l ts l.currentPool.pendingLeaves (seqInit l) with
    | error p =>
      obtain ⟨e, st⟩ := p
      try rw [hsl] at herr
      try rw [hsl]
      simp only at herr ⊢
      obtain ⟨extra, hup, hkeys⟩ := seqLoop_err l ts _ _ _ _ hsl
      refine ⟨st.uploads, rfl, ?_⟩
      intro u hu
      rw [hup] at hu
      rcases List.mem_append.mp hu with hu1 | hu2
      · simp [seqInit] at hu1
      · exact Or.inl (hkeys u hu2)
    | ok st1 =>
      try rw [hsl] at herr
      try rw [hsl]
      simp only at herr ⊢
      have hn1 : st1.n = l.tree.N + l.currentPool.pendingLeaves.length := by
        have := seqLoop_ok_n l ts _ _ _ hsl
        simpa [seqInit] using this
      obtain ⟨hov1, hov2, hov3, ⟨extra, hup1, hkeys1⟩, hov5⟩ := seqLoop_overlay l ts _ _ _ hsl
      obtain ⟨⟨ex1, hex1, hex1k⟩, _⟩ := seqPartial_facts st1
      have hmemP : ∀ u ∈ (seqPartial st1).uploads,
          ∃ nn ww, u.1 = TKey.tileKey tileHeight (-1) nn ww := by
        intro u hu
        rw [hex1] at hu
        rcases List.mem_append.mp hu with hu1 | hu2
        · rw [hup1] at hu1
          rcases List.mem_append.mp hu1 with hu3 | hu4
          · simp [seqInit] at hu3
          · exact hkeys1 u hu4
        · exact hex1k u hu2
      have hnP : (seqPartial st1).n = l.tree.N + l.currentPool.pendingLeaves.length := by
        rw [seqPartial_n, hn1]
      cases htp : tilesPhase l (newTiles tileHeight l.tree.N (seqPartial st1).n)
          (seqPartial st1) with
      | error p =>
        obtain ⟨e, st2⟩ := p
        try rw [htp] at herr
        try rw [htp]
        simp only at herr ⊢
        obtain ⟨ups2, hup2, hkeys2⟩ := tilesPhase_err l _ _ _ _ htp
        refine ⟨st2.uploads, rfl, ?_⟩
        intro u hu
        rw [hup2] at hu
        rcases List.mem_append.mp hu with hu1 | hu2
        · exact Or.inl (hmemP u hu1)
        · obtain ⟨t, ht, hpath⟩ := hkeys2 u hu2
          rw [hnP] at ht
          exact Or.inr ⟨t, ht, hpath⟩
      | ok st2 =>
        try rw [htp] at herr
        try rw [htp]
        simp only at herr ⊢
        obtain ⟨_, _, ⟨ups2, hup2, hF2⟩, _, _⟩ := tilesPhase_spec l _ _ _ htp
        have hmem2 : ∀ u ∈ st2.uploads,
            (∃ nn ww, u.1 = TKey.tileKey tileHeight (-1) nn ww) ∨
            (∃ t, t ∈ newTiles tileHeight l.tree.N
                (l.tree.N + l.currentPool.pendingLeaves.length) ∧ u.1 = t.path) := by
          intro u hu
          rw [hup2] at hu
          rcases List.mem_append.mp hu with hu1 | hu2
          · exact Or.inl (hmemP u hu1)
          · obtain ⟨t, ht, hR⟩ := forall₂_mem_right _ _ hF2 u hu2
            rw [hnP] at ht
            exact Or.inr ⟨t, ht, hR.1⟩
        unfold seqFinish at herr ⊢
        split
        · exact ⟨st2.uploads, rfl, hmem2⟩
        next hup =>
          rw [if_neg hup] at herr
          cases hth : treeHash st2.n (hashReaderFn l.edgeTiles st2.newHashes) with
          | error e => exact ⟨st2.uploads, rfl, hmem2⟩
          | ok rootHash =>
            try rw [hth] at herr
            try rw [hth]
            simp only at herr ⊢
            cases hsg : signTreeHead l.name l.logID l.privKey
                { N := st2.n, Hash := rootHash, Time := ts } with
            | error e => exact ⟨st2.uploads, rfl, hmem2⟩
            | ok ck =>
              try rw [hsg] at herr
              try rw [hsg]
              simp only at herr ⊢
              split
              · rename_i hsth
                rw [if_pos hsth] at herr
                simp at herr
              · exact ⟨st2.uploads, rfl, hmem2⟩

/-! ## The level-0 coherence argument -/

theorem path_full (t : Nat) :
    Tile.path { H := tileHeight, L := 0, N := t, W := 1024 } =
      TKey.tileKey tileHeight 0 t none := by
  unfold Tile.path
  rw [if_pos (by norm_num [tileHeight])]

theorem pathPartial (tN w : Nat) (hw : w < 1024) :
    Tile.path { H := tileHeight, L := 0, N := tN, W := w } =
      TKey.tileKey tileHeight 0 tN (some w) := by
  unfold Tile.path
  rw [if_neg (by norm_num [tileHeight]; omega)]

/-- Mid-round reads of level-0 stored hashes at or right of the current
partial block: they come from the overlay for the new leaves and from the
canonical level-0 edge tile for the old ones. -/
theorem roundRead (l : LogState) (lh : List Bytes) (ts : Int)
    (hG1 : l.tree.N = lh.length)
    (hG4 : ∀ h ∈ lh, h.length = 32)
    (hG2 : l.edgeTiles 0 = canonEdge lh)
    (st1 : LoopSt)
    (hsl : seqLoop l ts l.currentPool.pendingLeaves (seqInit l) = .ok st1)
    (m : Nat)
    (hm1 : lh.length / 1024 * 1024 ≤ m)
    (hm2 : m < lh.length + l.currentPool.pendingLeaves.length) :
    hashReaderFn l.edgeTiles st1.newHashes (shiSum m) =
      .ok ((lh ++ l.currentPool.pendingLeaves.map
        (fun e => recordHash (e.merkleTreeLeaf ts))).getD m zeroHash) := by
  obtain ⟨hov1, hov2, hov3, _, _⟩ := seqLoop_overlay l ts _ _ _ hsl
  have hseqn : (seqInit l).n = lh.length := by
    show l.tree.N = lh.length
    exact hG1
  rw [hseqn] at hov2 hov3
  by_cases hcase : lh.length ≤ m
  · -- the overlay holds the record hash of one of the round's leaves
    have hk := hov3 (m - lh.length) (by omega)
    rw [show lh.length + (m - lh.length) = m by omega] at hk
    unfold hashReaderFn
    rw [hk]
    simp only
    rw [List.getD_append_right _ _ _ _ hcase]
    rw [getD_map_lt _ _ _ (by omega) dummyEntry]
  · -- the old leaf is served from the canonical level-0 edge tile
    push_neg at hcase
    have hmod : 0 < lh.length % 1024 := by omega
    have hnone : st1.newHashes (shiSum m) = none := by
      rw [hov2 (shiSum m) (shiSum_strictMono hcase)]
      rfl
    unfold hashReaderFn
    rw [hnone]
    simp only
    have hL : (tileForIndex tileHeight (shiSum m)).L = 0 := by
      rw [tileForIndex_L0]
    rw [hL, hG2]
    have hlen0 : lh.length ≠ 0 := by omega
    unfold canonEdge
    rw [if_neg hlen0]
    simp only
    have hflat32 : ∀ h ∈ lh.drop ((lh.length - 1) / 1024 * 1024), h.length = 32 :=
      fun h hm => hG4 h (List.mem_of_mem_drop hm)
    have hdlen : (lh.drop ((lh.length - 1) / 1024 * 1024)).length =
        (lh.length - 1) % 1024 + 1 := by
      rw [List.length_drop]
      omega
    rw [hashFromTile_L0 ((lh.length - 1) / 1024) ((lh.length - 1) % 1024 + 1) _ m
      (by omega) (by omega)
      (by rw [flatten_length_32 _ hflat32, hdlen])
      (by omega) (by omega)]
    rw [chunkList_flatten _ hflat32]
    rw [getD_drop]
    rw [show (lh.length - 1) / 1024 * 1024 + m % 1024 = m by omega]
    rw [List.getD_append _ _ _ _ hcase]

/-- Reading back an uploaded level-0 tile whose data was materialised
from coherent reads yields the expected leaf hash. -/
theorem tileValue (R : Nat → Except ReadErr Bytes) (lh2 : List Bytes) (tN W : Nat)
    (dT : Bytes) (hW1 : 1 ≤ W) (hW2 : W ≤ 1024)
    (hrd : readTileData { H := tileHeight, L := 0, N := tN, W := W } R = .ok dT)
    (hread : ∀ j, j < W → R (shiSum (tN * 1024 + j)) = .ok (lh2.getD (tN * 1024 + j) zeroHash))
    (h32 : ∀ h ∈ lh2, h.length = 32) (hlen : tN * 1024 + W ≤ lh2.length)
    (i : Nat) (hiN : i / 1024 = tN) (hioff : i % 1024 < W) :
    hashFromTile { H := tileHeight, L := 0, N := tN, W := W } dT (storedHashIndex 0 i) =
      .ok (lh2.getD i zeroHash) := by
  obtain ⟨hs, rfl, hhslen, hreads⟩ := readTileData_ok _ _ _ hrd
  have hWlen : hs.length = W := hhslen
  have hreads' : ∀ j, j < W → hs.getD j zeroHash = lh2.getD (tN * 1024 + j) zeroHash := by
    intro j hj
    have h1 := hreads j hj
    have h2 := hread j hj
    rw [show ({ H := tileHeight, L := 0, N := tN, W := W } : Tile).H *
        ({ H := tileHeight, L := 0, N := tN, W := W } : Tile).L.toNat = 0 from rfl] at h1
    rw [show ({ H := tileHeight, L := 0, N := tN, W := W } : Tile).N <<<
        ({ H := tileHeight, L := 0, N := tN, W := W } : Tile).H = tN * 1024 by
      show tN <<< tileHeight = tN * 1024
      rw [Nat.shiftLeft_eq]
      norm_num [tileHeight]] at h1
    rw [show storedHashIndex 0 (tN * 1024 + j) = shiSum (tN * 1024 + j) from rfl] at h1
    rw [h1] at h2
    exact (Except.ok.injEq _ _).mp h2
  have hhs32 : ∀ h ∈ hs, h.length = 32 := by
    intro h hm
    obtain ⟨j, hj, hget⟩ := List.mem_iff_getElem.mp hm
    have hgd : hs.getD j zeroHash = h := by
      rw [List.getD_eq_getElem _ _ hj, hget]
    rw [hWlen] at hj
    rw [← hgd, hreads' j hj]
    exact h32 _ (getD_mem _ _ (by omega) _)
  rw [show storedHashIndex 0 i = shiSum i from rfl]
  rw [hashFromTile_L0 tN W _ i hW1 (by omega)
    (by rw [flatten_length_32 _ hhs32, hWlen]) hiN hioff]
  rw [chunkList_flatten _ hhs32]
  rw [hreads' (i % 1024) hioff]
  rw [show tN * 1024 + i % 1024 = i by omega]

/-- An uploaded level-0 tile that exactly covers the tail of the leaf
hashes carries the canonical edge-tile data. -/
theorem tileData_canon (R : Nat → Except ReadErr Bytes) (lh2 : List Bytes) (tN W : Nat)
    (dT : Bytes) (hW1 : 1 ≤ W) (hW2 : W ≤ 1024)
    (hrd : readTileData { H := tileHeight, L := 0, N := tN, W := W } R = .ok dT)
    (hread : ∀ j, j < W → R (shiSum (tN * 1024 + j)) = .ok (lh2.getD (tN * 1024 + j) zeroHash))
    (hcov : tN * 1024 + W = lh2.length) :
    dT = (lh2.drop (tN * 1024)).flatten := by
  obtain ⟨hs, rfl, hhslen, hreads⟩ := readTileData_ok _ _ _ hrd
  have hreads' : ∀ j, j < W → hs.getD j zeroHash = lh2.getD (tN * 1024 + j) zeroHash := by
    intro j hj
    have h1 := hreads j hj
    have h2 := hread j hj
    rw [show ({ H := tileHeight, L := 0, N := tN, W := W } : Tile).H *
        ({ H := tileHeight, L := 0, N := tN, W := W } : Tile).L.toNat = 0 from rfl] at h1
    rw [show ({ H := tileHeight, L := 0, N := tN, W := W } : Tile).N <<<
        ({ H := tileHeight, L := 0, N := tN, W := W } : Tile).H = tN * 1024 by
      show tN <<< tileHeight = tN * 1024
      rw [Nat.shiftLeft_eq]
      norm_num [tileHeight]] at h1
    rw [show storedHashIndex 0 (tN * 1024 + j) = shiSum (tN * 1024 + j) from rfl] at h1
    rw [h1] at h2
    exact (Except.ok.injEq _ _).mp h2
  have hWlen : hs.length = W := hhslen
  have heq : hs = lh2.drop (tN * 1024) := by
    refine ext_getD _ _ zeroHash ?_ ?_
    · rw [hWlen, List.length_drop]
      omega
    · intro j hj
      rw [hWlen] at hj
      rw [getD_drop, hreads' j hj]
  rw [heq]

/-- The level-0 tiles of a growing round: full tiles left of the last
block, then the tile of the last (possibly incomplete) block. -/
theorem L0_snoc (N0 n : Nat) (hlt : N0 < n) :
    tilesAtLevel tileHeight 0 N0 n =
      (List.range' (N0 / 1024) ((n - 1) / 1024 - N0 / 1024)).map
        (fun t => { H := tileHeight, L := 0, N := t, W := 1024 }) ++
      [{ H := tileHeight, L := 0, N := (n - 1) / 1024, W := (n - 1) % 1024 + 1 }] := by
  rw [tilesAtLevel_L0, if_neg (by omega)]
  by_cases hmod : 0 < n % 1024
  · rw [if_pos hmod]
    rw [show n / 1024 - N0 / 1024 = (n - 1) / 1024 - N0 / 1024 by omega]
    rw [show ({ H := tileHeight, L := 0, N := n / 1024, W := n % 1024 } : Tile) =
      { H := tileHeight, L := 0, N := (n - 1) / 1024, W := (n - 1) % 1024 + 1 } by
      simp only [Tile.mk.injEq]
      refine ⟨trivial, trivial, by omega, by omega⟩]
  · rw [if_neg hmod, List.append_nil]
    rw [show n / 1024 - N0 / 1024 = ((n - 1) / 1024 - N0 / 1024) + 1 by omega]
    rw [List.range'_concat, List.map_append]
    congr 1
    simp only [List.map_singleton, List.cons.injEq, and_true]
    simp only [Tile.mk.injEq]
    refine ⟨trivial, trivial, by omega, by omega⟩

/-- A one-tile phase: read the tile data, update the working edge tiles,
schedule the upload. -/
theorem tilesPhase_single (l : LogState) (t : Tile) (st st' : LoopSt)
    (h : tilesPhase l [t] st = .ok st') :
    ∃ d, readTileData t (hashReaderFn l.edgeTiles st.newHashes) = .ok d ∧
      st' = { st with edgeTiles := updateEdgeIf st.edgeTiles t d,
                      uploads := st.uploads ++ [(t.path, d)] } := by
  unfold tilesPhase at h
  cases hm : readTileData t (hashReaderFn l.edgeTiles st.newHashes) with
  | error e => rw [hm] at h; cases h
  | ok data =>
    rw [hm] at h
    simp only at h
    unfold tilesPhase at h
    cases h
    refine ⟨data, ?_, ?_⟩
    · first
      | exact hm
      | rfl
    · rfl

theorem lastVal_single (u : TKey × Bytes) (k : TKey) :
    lastVal [u] k = if u.1 = k then some u.2 else none := rfl

theorem leafReadTile_path_ne_sth (sz i : Nat) : (leafReadTile sz i).path ≠ TKey.sth := by
  unfold leafReadTile
  split
  · unfold Tile.path
    exact fun h => TKey.noConfusion h
  · unfold Tile.path
    exact fun h => TKey.noConfusion h

theorem leafReadTile_path_full (sz i : Nat) (h : (i / 1024 + 1) * 1024 ≤ sz) :
    (leafReadTile sz i).path = TKey.tileKey tileHeight 0 (i / 1024) none := by
  unfold leafReadTile
  rw [if_pos h]
  exact path_full _

theorem leafReadTile_pathPartial (sz i : Nat) (h : ¬ (i / 1024 + 1) * 1024 ≤ sz)
    (hi : i < sz) :
    (leafReadTile sz i).path =
      TKey.tileKey tileHeight 0 (i / 1024) (some (sz - i / 1024 * 1024)) := by
  unfold leafReadTile
  rw [if_neg h]
  exact pathPartial _ _ (by omega)

/-- A failed round preserves the level-0 coherence invariant: nothing it
may have uploaded overlaps the keys an external reader consults for the
published tree. -/
theorem good_seq_err (l : LogState) (bk : Backend) (lh : List Bytes) (ts : Int)
    (upOk : TKey → Bool) (hg : Good l bk lh)
    (herr : (sequencePool l bk ts upOk).err ≠ none) :
    Good (sequencePool l bk ts upOk).log (sequencePool l bk ts upOk).backend lh := by
  obtain ⟨hG1, hG4, hG2, hG3⟩ := hg
  obtain ⟨_, hfail, _⟩ := sequencePool_facts l bk ts upOk
  obtain ⟨htree, hedge, _⟩ := hfail herr
  obtain ⟨ups, hbk, hkeys⟩ := sequencePool_err_uploads l bk ts upOk herr
  refine ⟨by rw [htree]; exact hG1, hG4, by rw [hedge]; exact hG2, ?_⟩
  intro i hi
  have hκ : ∀ u ∈ ups, u.1 ≠ (leafReadTile lh.length i).path := by
    intro u hu heq
    rcases hkeys u hu with ⟨nn, ww, hkey⟩ | ⟨t, htmem, hkey⟩
    · rw [hkey] at heq
      by_cases hfull : (i / 1024 + 1) * 1024 ≤ lh.length
      · rw [leafReadTile_path_full _ _ hfull] at heq
        simp at heq
      · rw [leafReadTile_pathPartial _ _ hfull hi] at heq
        simp at heq
    · rw [hG1] at htmem
      by_cases hlen0 : l.currentPool.pendingLeaves.length = 0
      · rw [hlen0, Nat.add_zero, newTiles_self] at htmem
        simp at htmem
      · have hn : 0 < lh.length + l.currentPool.pendingLeaves.length := by omega
        rw [newTiles_decomp _ _ hn] at htmem
        rcases List.mem_append.mp htmem with hL0 | hrest
        · rw [L0_snoc _ _ (by omega)] at hL0
          rcases List.mem_append.mp hL0 with hfullt | hlast
          · obtain ⟨a, ha, rfl⟩ := List.exists_of_mem_map hfullt
            rw [List.mem_range'_1] at ha
            rw [hkey, path_full] at heq
            by_cases hfull : (i / 1024 + 1) * 1024 ≤ lh.length
            · rw [leafReadTile_path_full _ _ hfull] at heq
              simp at heq
              omega
            · rw [leafReadTile_pathPartial _ _ hfull hi] at heq
              simp at heq
          · simp only [List.mem_singleton] at hlast
            subst hlast
            rw [hkey] at heq
            have hpath : Tile.path { H := tileHeight, L := 0, N := (lh.length + l.currentPool.pendingLeaves.length - 1) / 1024, W := (lh.length + l.currentPool.pendingLeaves.length - 1) % 1024 + 1 } =
              TKey.tileKey tileHeight 0
                ((lh.length + l.currentPool.pendingLeaves.length - 1) / 1024)
                (if (lh.length + l.currentPool.pendingLeaves.length - 1) % 1024 + 1 = 1024
                 then none
                 else some ((lh.length + l.currentPool.pendingLeaves.length - 1) % 1024 + 1)) := by
              unfold Tile.path
              norm_num [tileHeight]
            rw [hpath] at heq
            by_cases hfull : (i / 1024 + 1) * 1024 ≤ lh.length
            · rw [leafReadTile_path_full _ _ hfull] at heq
              by_cases hw : (lh.length + l.currentPool.pendingLeaves.length - 1) % 1024 + 1 = 1024
              · rw [if_pos hw] at heq
                simp at heq
                omega
              · rw [if_neg hw] at heq
                simp at heq
            · rw [leafReadTile_pathPartial _ _ hfull hi] at heq
              by_cases hw : (lh.length + l.currentPool.pendingLeaves.length - 1) % 1024 + 1 = 1024
              · rw [if_pos hw] at heq
                simp at heq
              · rw [if_neg hw] at heq
                simp at heq
                omega
        · obtain ⟨hL1, hH⟩ := newTiles_rest_L _ _ _ hrest
          rw [hkey] at heq
          by_cases hfull : (i / 1024 + 1) * 1024 ≤ lh.length
          · rw [leafReadTile_path_full _ _ hfull] at heq
            unfold Tile.path at heq
            simp at heq
            omega
          · rw [leafReadTile_pathPartial _ _ hfull hi] at heq
            unfold Tile.path at heq
            simp at heq
            omega
  have hkeyeq : (sequencePool l bk ts upOk).backend ((leafReadTile lh.length i).path) =
      bk ((leafReadTile lh.length i).path) := by
    rw [hbk]
    exact applyUploads_nokey _ _ _ _ hκ
  have h3 := hG3 i hi
  unfold storedLeafHash at h3 ⊢
  rw [hkeyeq]
  exact h3

theorem lastVal_cons (u : TKey × Bytes) (t : List (TKey × Bytes)) (k : TKey) :
    lastVal (u :: t) k =
      match lastVal t k with
      | some v => some v
      | none => if u.1 = k then some u.2 else none := rfl

theorem storedLeafHash_compute (bk2 : Backend) (sz i : Nat) (d v : Bytes)
    (hkey : bk2 ((leafReadTile sz i).path) = some d)
    (hft : hashFromTile (leafReadTile sz i) d (storedHashIndex 0 i) = .ok v) :
    storedLeafHash bk2 sz i = some v := by
  unfold storedLeafHash
  rw [hkey]
  simp only
  rw [hft]

theorem storedLeafHash_congr (bk1 bk2 : Backend) (sz1 sz2 i : Nat)
    (htile : leafReadTile sz1 i = leafReadTile sz2 i)
    (hkey : bk1 ((leafReadTile sz2 i).path) = bk2 ((leafReadTile sz2 i).path)) :
    storedLeafHash bk1 sz1 i = storedLeafHash bk2 sz2 i := by
  unfold storedLeafHash
  rw [htile, hkey]

/-- A successful round publishes a coherent state whose leaf hashes are
the old ones extended with the record hashes of the round's Merkle tree
leaves. -/
theorem good_seq_ok (l : LogState) (bk : Backend) (lh : List Bytes) (ts : Int)
    (upOk : TKey → Bool) (hg : Good l bk lh)
    (hok : (sequencePool l bk ts upOk).err = none) :
    Good (sequencePool l bk ts upOk).log (sequencePool l bk ts upOk).backend
      (lh ++ l.currentPool.pendingLeaves.map (fun e => recordHash (e.merkleTreeLeaf ts))) := by
  obtain ⟨hG1, hG4, hG2, hG3⟩ := hg
  obtain ⟨st1, st2, hsl, htp, hupok, hN, hE, ckb, hbk⟩ := sequencePool_success l bk ts upOk hok
  obtain ⟨hov1, _, _, ⟨extraL, hupL, hkeysL⟩, hov5⟩ := seqLoop_overlay l ts _ _ _ hsl
  have hseqn : (seqInit l).n = lh.length := hG1
  rw [hseqn] at hov1
  have hst1n : st1.n = lh.length + l.currentPool.pendingLeaves.length := hov1
  have hnP : (seqPartial st1).n = lh.length + l.currentPool.pendingLeaves.length := by
    rw [seqPartial_n, hst1n]
  have hst1up : st1.uploads = extraL := by
    rw [hupL]
    rfl
  obtain ⟨⟨ex1, hex1, hex1k⟩, hedgeP⟩ := seqPartial_facts st1
  have hPup : ∀ u ∈ (seqPartial st1).uploads,
      ∃ nn ww, u.1 = TKey.tileKey tileHeight (-1) nn ww := by
    intro u hu
    rw [hex1] at hu
    rcases List.mem_append.mp hu with h1 | h2
    · rw [hst1up] at h1
      exact hkeysL u h1
    · exact hex1k u h2
  have hlen' : (lh ++ l.currentPool.pendingLeaves.map
      (fun e => recordHash (e.merkleTreeLeaf ts))).length =
      lh.length + l.currentPool.pendingLeaves.length := by
    rw [List.length_append, List.length_map]
  have h32' : ∀ h ∈ lh ++ l.currentPool.pendingLeaves.map
      (fun e => recordHash (e.merkleTreeLeaf ts)), h.length = 32 := by
    intro h hm
    rcases List.mem_append.mp hm with h1 | h2
    · exact hG4 h h1
    · obtain ⟨e, _, he⟩ := List.exists_of_mem_map h2
      rw [← he]
      exact recordHash_length _
  have hst2n : st2.n = lh.length + l.currentPool.pendingLeaves.length := by
    rw [tilesPhase_ok_n l _ _ _ htp, hnP]
  have hbkP : ∀ k, (sequencePool l bk ts upOk).backend k =
      if k = TKey.sth then some ckb else applyUploads bk st2.uploads upOk k := by
    intro k
    rw [hbk]
  by_cases hP0 : l.currentPool.pendingLeaves.length = 0
  · -- an empty round: the published state is the old one
    have hmap0 : l.currentPool.pendingLeaves.map (fun e => recordHash (e.merkleTreeLeaf ts)) =
        ([] : List Bytes) := by
      rw [List.length_eq_zero.mp hP0]
      rfl
    rw [hmap0, List.append_nil]
    have htiles0 : newTiles tileHeight l.tree.N (seqPartial st1).n = [] := by
      rw [hG1, hnP, hP0, Nat.add_zero]
      exact newTiles_self _ _
    rw [htiles0] at htp
    unfold tilesPhase at htp
    cases htp
    refine ⟨by rw [hN, hst2n]; omega, hG4, ?_, ?_⟩
    · rw [hE]
      rw [hedgeP 0 (by norm_num)]
      rw [hov5 0 (by norm_num)]
      exact hG2
    · intro i hi
      have hnone : ∀ u ∈ (seqPartial st1).uploads, u.1 ≠ (leafReadTile lh.length i).path := by
        intro u hu heq
        obtain ⟨nn, ww, hk⟩ := hPup u hu
        rw [hk] at heq
        by_cases hfull : (i / 1024 + 1) * 1024 ≤ lh.length
        · rw [leafReadTile_path_full _ _ hfull] at heq
          simp at heq
        · rw [leafReadTile_pathPartial _ _ hfull hi] at heq
          simp at heq
      have hkeyeq : (sequencePool l bk ts upOk).backend ((leafReadTile lh.length i).path) =
          bk ((leafReadTile lh.length i).path) := by
        rw [hbkP]
        rw [if_neg (leafReadTile_path_ne_sth _ _)]
        exact applyUploads_nokey _ _ _ _ hnone
      rw [storedLeafHash_congr _ bk lh.length lh.length i rfl hkeyeq]
      exact hG3 i hi
  · -- a growing round
    have hP1 : 0 < l.currentPool.pendingLeaves.length := Nat.pos_of_ne_zero hP0
    have hlt : lh.length < lh.length + l.currentPool.pendingLeaves.length := by omega
    have hargs : newTiles tileHeight l.tree.N (seqPartial st1).n =
        newTiles tileHeight lh.length (lh.length + l.currentPool.pendingLeaves.length) := by
      rw [hG1, hnP]
    rw [hargs, newTiles_decomp _ _ (by omega), L0_snoc _ _ hlt] at htp
    obtain ⟨stM, htpM, htpR⟩ := tilesPhase_split l _ _ _ _ htp
    obtain ⟨stA, htpA, htpB⟩ := tilesPhase_split l _ _ _ _ htpM
    obtain ⟨d, hrdB, hstM⟩ := tilesPhase_single l _ _ _ htpB
    obtain ⟨hAn, hAnh, ⟨upsI, hupsI, hFI⟩, hAedge, hAedge0⟩ := tilesPhase_spec l _ _ _ htpA
    obtain ⟨hRn, hRnh, ⟨upsR, hupsR, hFR⟩, hRedge, _⟩ := tilesPhase_spec l _ _ _ htpR
    have hAnh1 : stA.newHashes = st1.newHashes := by
      rw [hAnh, seqPartial_newHashes]
    have hMnh : stM.newHashes = st1.newHashes := by
      rw [hstM]
      exact hAnh1
    rw [seqPartial_newHashes] at hFI
    rw [hMnh] at hFR
    rw [hAnh1] at hrdB
    have hMup : stM.uploads = stA.uploads ++
        [(Tile.path { H := tileHeight, L := 0, N := (lh.length + l.currentPool.pendingLeaves.length - 1) / 1024, W := (lh.length + l.currentPool.pendingLeaves.length - 1) % 1024 + 1 }, d)] := by
      rw [hstM]
    have hups2 : st2.uploads = (((seqPartial st1).uploads ++ upsI) ++
        [(Tile.path { H := tileHeight, L := 0, N := (lh.length + l.currentPool.pendingLeaves.length - 1) / 1024, W := (lh.length + l.currentPool.pendingLeaves.length - 1) % 1024 + 1 }, d)]) ++
        upsR := by
      rw [hupsR, hMup, hupsI]
    have hread : ∀ m, lh.length / 1024 * 1024 ≤ m →
        m < lh.length + l.currentPool.pendingLeaves.length →
        hashReaderFn l.edgeTiles st1.newHashes (shiSum m) =
          .ok ((lh ++ l.currentPool.pendingLeaves.map
            (fun e => recordHash (e.merkleTreeLeaf ts))).getD m zeroHash) :=
      fun m h1 h2 => roundRead l lh ts hG1 hG4 hG2 st1 hsl m h1 h2
    have hreadB : ∀ j, j < (lh.length + l.currentPool.pendingLeaves.length - 1) % 1024 + 1 →
        hashReaderFn l.edgeTiles st1.newHashes
          (shiSum ((lh.length + l.currentPool.pendingLeaves.length - 1) / 1024 * 1024 + j)) =
        .ok ((lh ++ l.currentPool.pendingLeaves.map
          (fun e => recordHash (e.merkleTreeLeaf ts))).getD
          ((lh.length + l.currentPool.pendingLeaves.length - 1) / 1024 * 1024 + j) zeroHash) := by
      intro j hj
      exact hread _ (by omega) (by omega)
    have hdcanon : d = ((lh ++ l.currentPool.pendingLeaves.map
        (fun e => recordHash (e.merkleTreeLeaf ts))).drop
        ((lh.length + l.currentPool.pendingLeaves.length - 1) / 1024 * 1024)).flatten := by
      refine tileData_canon _ _ _ _ _ (by omega) (by omega) hrdB hreadB ?_
      rw [hlen']
      omega
    have hlastbeats : ∀ t0, stA.edgeTiles 0 = some t0 →
        t0.tile.N < (lh.length + l.currentPool.pendingLeaves.length - 1) / 1024 ∨
        (t0.tile.N = (lh.length + l.currentPool.pendingLeaves.length - 1) / 1024 ∧
          t0.tile.W < (lh.length + l.currentPool.pendingLeaves.length - 1) % 1024 + 1) := by
      intro t0 h0
      rcases hAedge0 with h1 | ⟨t, htmem, htL, d', hd'⟩
      · have hseqe : (seqInit l).edgeTiles 0 = l.edgeTiles 0 := rfl
        rw [h1, hedgeP 0 (by norm_num), hov5 0 (by norm_num), hseqe, hG2] at h0
        unfold canonEdge at h0
        by_cases hlh0 : lh.length = 0
        · rw [if_pos hlh0] at h0
          cases h0
        · rw [if_neg hlh0] at h0
          cases h0
          show (lh.length - 1) / 1024 <
              (lh.length + l.currentPool.pendingLeaves.length - 1) / 1024 ∨
            ((lh.length - 1) / 1024 =
              (lh.length + l.currentPool.pendingLeaves.length - 1) / 1024 ∧
             (lh.length - 1) % 1024 + 1 <
              (lh.length + l.currentPool.pendingLeaves.length - 1) % 1024 + 1)
          omega
      · rw [hd'] at h0
        cases h0
        obtain ⟨a, ha, hf⟩ := List.exists_of_mem_map htmem
        rw [List.mem_range'_1] at ha
        rw [← hf]
        left
        show a < _
        omega
    have hM0 : stM.edgeTiles 0 = some ⟨{ H := tileHeight, L := 0, N := (lh.length + l.currentPool.pendingLeaves.length - 1) / 1024, W := (lh.length + l.currentPool.pendingLeaves.length - 1) % 1024 + 1 }, d⟩ := by
      rw [hstM]
      exact updateEdgeIf_install _ _ _ rfl hlastbeats
    have h20 : st2.edgeTiles 0 = some ⟨{ H := tileHeight, L := 0, N := (lh.length + l.currentPool.pendingLeaves.length - 1) / 1024, W := (lh.length + l.currentPool.pendingLeaves.length - 1) % 1024 + 1 }, d⟩ := by
      rw [hRedge 0 (fun t ht => by
        have h1 := (newTiles_rest_L _ _ _ ht).1
        omega)]
      exact hM0
    have hrestne : ∀ (NN : Nat) (WW : Option Nat), lastVal upsR (TKey.tileKey tileHeight 0 NN WW) = none := by
      intro NN WW
      refine lastVal_none _ _ ?_
      intro u hu heq
      obtain ⟨t, htmem, hRR⟩ := forall₂_mem_right _ _ hFR u hu
      have hL := (newTiles_rest_L _ _ _ htmem).1
      rw [hRR.1] at heq
      unfold Tile.path at heq
      simp at heq
      omega
    have hPnone : ∀ (NN : Nat) (WW : Option Nat),
        lastVal (seqPartial st1).uploads (TKey.tileKey tileHeight 0 NN WW) = none := by
      intro NN WW
      refine lastVal_none _ _ ?_
      intro u hu heq
      obtain ⟨nn2, ww2, hk⟩ := hPup u hu
      rw [hk] at heq
      simp at heq
    refine ⟨by rw [hN, hst2n, hlen'], h32', ?_, ?_⟩
    · -- the canonical level-0 edge tile
      rw [hE, h20]
      unfold canonEdge
      rw [if_neg (by rw [hlen']; omega)]
      rw [hlen', hdcanon]
    · -- every leaf hash is served to the external reader
      intro i hi
      rw [hlen'] at hi
      rw [hlen']
      by_cases hfull : (i / 1024 + 1) * 1024 ≤ lh.length + l.currentPool.pendingLeaves.length
      · by_cases hold : i / 1024 < lh.length / 1024
        · -- an old, untouched full tile
          have hnone : ∀ u ∈ st2.uploads, u.1 ≠
              (leafReadTile (lh.length + l.currentPool.pendingLeaves.length) i).path := by
            intro u hu heq
            rw [leafReadTile_path_full _ _ hfull] at heq
            rw [hups2] at hu
            rcases List.mem_append.mp hu with hu1 | huR
            · rcases List.mem_append.mp hu1 with hu2 | huB
              · rcases List.mem_append.mp hu2 with huP | huI
                · obtain ⟨nn2, ww2, hk⟩ := hPup u huP
                  rw [hk] at heq
                  simp at heq
                · obtain ⟨t, htmem, hRR⟩ := forall₂_mem_right _ _ hFI u huI
                  obtain ⟨a, ha, haf⟩ := List.exists_of_mem_map htmem
                  rw [List.mem_range'_1] at ha
                  rw [hRR.1, ← haf, path_full] at heq
                  simp at heq
                  omega
              · simp at huB
                rw [huB] at heq
                unfold Tile.path at heq
                simp at heq
                omega
            · obtain ⟨t, htmem, hRR⟩ := forall₂_mem_right _ _ hFR u huR
              have hL := (newTiles_rest_L _ _ _ htmem).1
              rw [hRR.1] at heq
              unfold Tile.path at heq
              simp at heq
              omega
          have hkeyeq : (sequencePool l bk ts upOk).backend
              ((leafReadTile lh.length i).path) = bk ((leafReadTile lh.length i).path) := by
            have htile : leafReadTile (lh.length + l.currentPool.pendingLeaves.length) i =
                leafReadTile lh.length i := by
              unfold leafReadTile
              rw [if_pos hfull, if_pos (by omega)]
            rw [← htile, hbkP]
            rw [if_neg (leafReadTile_path_ne_sth _ _)]
            exact applyUploads_nokey _ _ _ _ hnone
          have hiold : i < lh.length := by omega
          rw [storedLeafHash_congr _ bk _ lh.length i (by
            unfold leafReadTile
            rw [if_pos hfull, if_pos (by omega)]) hkeyeq]
          rw [hG3 i hiold]
          rw [List.getD_append _ _ _ _ hiold]
        · -- a full tile freshly uploaded this round
          push_neg at hold
          have hbase : lh.length / 1024 * 1024 ≤ i / 1024 * 1024 := by omega
          by_cases hlastf : i / 1024 =
              (lh.length + l.currentPool.pendingLeaves.length - 1) / 1024
          · -- it is the round's final (full) tile
            have hmod0 : (lh.length + l.currentPool.pendingLeaves.length) % 1024 = 0 := by
              omega
            have hlv : lastVal st2.uploads
                (TKey.tileKey tileHeight 0 (i / 1024) none) = some d := by
              rw [hups2, lastVal_append, hrestne, lastVal_append, lastVal_single]
              rw [if_pos (by
                rw [show Tile.path { H := tileHeight, L := 0, N := (lh.length + l.currentPool.pendingLeaves.length - 1) / 1024, W := (lh.length + l.currentPool.pendingLeaves.length - 1) % 1024 + 1 } =
                  TKey.tileKey tileHeight 0
                    ((lh.length + l.currentPool.pendingLeaves.length - 1) / 1024) none by
                  unfold Tile.path
                  rw [if_pos (by norm_num [tileHeight]; omega)], hlastf])]
            have hfull2 : leafReadTile (lh.length + l.currentPool.pendingLeaves.length) i =
                { H := tileHeight, L := 0, N := i / 1024, W := 1024 } := by
              unfold leafReadTile
              rw [if_pos hfull]
            have hrd2 : readTileData { H := tileHeight, L := 0, N := i / 1024, W := 1024 }
                (hashReaderFn l.edgeTiles st1.newHashes) = .ok d := by
              rw [show ({ H := tileHeight, L := 0, N := i / 1024, W := 1024 } : Tile) =
                { H := tileHeight, L := 0, N := (lh.length + l.currentPool.pendingLeaves.length - 1) / 1024, W := (lh.length + l.currentPool.pendingLeaves.length - 1) % 1024 + 1 } by
                simp only [Tile.mk.injEq]
                refine ⟨trivial, trivial, by omega, by omega⟩]
              exact hrdB
            refine storedLeafHash_compute _ _ _ d _ ?_ ?_
            · rw [hbkP, if_neg (leafReadTile_path_ne_sth _ _)]
              rw [applyUploads_lastVal _ _ _ _ hupok]
              rw [leafReadTile_path_full _ _ hfull, hlv]
            · rw [hfull2]
              refine tileValue _ _ _ _ _ (by omega) (by omega) hrd2 ?_ h32' ?_ i rfl (by omega)
              · intro j hj
                exact hread _ (by omega) (by omega)
              · rw [hlen']
                omega
          · -- it is one of the earlier full tiles of the round
            have hlast2 : i / 1024 <
                (lh.length + l.currentPool.pendingLeaves.length - 1) / 1024 := by
              omega
            have hasplit : List.range' (lh.length / 1024)
                ((lh.length + l.currentPool.pendingLeaves.length - 1) / 1024 -
                  lh.length / 1024) =
                List.range' (lh.length / 1024) (i / 1024 - lh.length / 1024) ++
                i / 1024 :: List.range' (i / 1024 + 1)
                  ((lh.length + l.currentPool.pendingLeaves.length - 1) / 1024 -
                    i / 1024 - 1) := by
              have h1 := List.range'_append (lh.length / 1024) (i / 1024 - lh.length / 1024)
                ((lh.length + l.currentPool.pendingLeaves.length - 1) / 1024 - i / 1024) 1
              rw [show lh.length / 1024 + 1 * (i / 1024 - lh.length / 1024) = i / 1024 by
                omega] at h1
              rw [show (lh.length + l.currentPool.pendingLeaves.length - 1) / 1024 -
                  i / 1024 + (i / 1024 - lh.length / 1024) =
                  (lh.length + l.currentPool.pendingLeaves.length - 1) / 1024 -
                    lh.length / 1024 by omega] at h1
              rw [← h1]
              congr 1
              rw [show (lh.length + l.currentPool.pendingLeaves.length - 1) / 1024 -
                  i / 1024 = ((lh.length + l.currentPool.pendingLeaves.length - 1) / 1024 -
                  i / 1024 - 1) + 1 by omega]
              rw [List.range'_succ]
              rw [show (lh.length + l.currentPool.pendingLeaves.length - 1) / 1024 -
                i / 1024 - 1 + 1 - 1 = (lh.length + l.currentPool.pendingLeaves.length - 1) /
                1024 - i / 1024 - 1 by omega]
            rw [hasplit, List.map_append, List.map_cons] at hFI
            obtain ⟨upsA, upsB', hupsplit, hFA, hFrest⟩ := forall₂_append_split _ _ _ hFI
            cases hFrest with
            | cons hRt hFB =>
              rename_i ut upsB
              have hlv : lastVal st2.uploads
                  (TKey.tileKey tileHeight 0 (i / 1024) none) = some ut.2 := by
                rw [hups2, lastVal_append, hrestne, lastVal_append, lastVal_single]
                rw [if_neg (by
                  intro heq
                  rw [show Tile.path { H := tileHeight, L := 0, N := (lh.length + l.currentPool.pendingLeaves.length - 1) / 1024, W := (lh.length + l.currentPool.pendingLeaves.length - 1) % 1024 + 1 } =
                    TKey.tileKey tileHeight 0
                      ((lh.length + l.currentPool.pendingLeaves.length - 1) / 1024)
                      (if (lh.length + l.currentPool.pendingLeaves.length - 1) % 1024 + 1 =
                          1024 then none
                       else some ((lh.length + l.currentPool.pendingLeaves.length - 1) %
                          1024 + 1)) from by
                    unfold Tile.path
                    norm_num [tileHeight]] at heq
                  by_cases hw : (lh.length + l.currentPool.pendingLeaves.length - 1) %
                      1024 + 1 = 1024
                  · rw [if_pos hw] at heq
                    simp at heq
                    omega
                  · rw [if_neg hw] at heq
                    simp at heq)]
                rw [lastVal_append, hupsplit, lastVal_append, lastVal_cons]
                rw [lastVal_none upsB _ (by
                  intro u hu heq
                  obtain ⟨t, htmem, hRR⟩ := forall₂_mem_right _ _ hFB u hu
                  obtain ⟨a, ha, haf⟩ := List.exists_of_mem_map htmem
                  rw [List.mem_range'_1] at ha
                  rw [hRR.1, ← haf, path_full] at heq
                  simp at heq
                  omega)]
                rw [if_pos (by rw [hRt.1, path_full])]
              have hfull2 : leafReadTile (lh.length + l.currentPool.pendingLeaves.length) i =
                  { H := tileHeight, L := 0, N := i / 1024, W := 1024 } := by
                unfold leafReadTile
                rw [if_pos hfull]
              refine storedLeafHash_compute _ _ _ ut.2 _ ?_ ?_
              · rw [hbkP, if_neg (leafReadTile_path_ne_sth _ _)]
                rw [applyUploads_lastVal _ _ _ _ hupok]
                rw [leafReadTile_path_full _ _ hfull, hlv]
              · rw [hfull2]
                refine tileValue _ _ _ _ _ (by omega) (by omega) hRt.2 ?_ h32' ?_ i rfl (by omega)
                · intro j hj
                  exact hread _ (by omega) (by omega)
                · rw [hlen']
                  omega
      · -- the pending partial tile
        have hi2 : i / 1024 = (lh.length + l.currentPool.pendingLeaves.length) / 1024 := by
          omega
        have hmodpos : 0 < (lh.length + l.currentPool.pendingLeaves.length) % 1024 := by
          omega
        have hpart : leafReadTile (lh.length + l.currentPool.pendingLeaves.length) i =
            { H := tileHeight, L := 0, N := i / 1024,
              W := lh.length + l.currentPool.pendingLeaves.length - i / 1024 * 1024 } := by
          unfold leafReadTile
          rw [if_neg hfull]
        have hlastrec : ({ H := tileHeight, L := 0, N := (lh.length + l.currentPool.pendingLeaves.length - 1) / 1024, W := (lh.length + l.currentPool.pendingLeaves.length - 1) % 1024 + 1 } : Tile) =
            { H := tileHeight, L := 0, N := i / 1024,
              W := lh.length + l.currentPool.pendingLeaves.length - i / 1024 * 1024 } := by
          simp only [Tile.mk.injEq]
          refine ⟨trivial, trivial, by omega, by omega⟩
        have hlv : lastVal st2.uploads ((leafReadTile
            (lh.length + l.currentPool.pendingLeaves.length) i).path) = some d := by
          rw [leafReadTile_pathPartial _ _ hfull (by omega)]
          rw [hups2, lastVal_append, hrestne, lastVal_append, lastVal_single]
          rw [if_pos (by
            rw [hlastrec, pathPartial _ _ (by omega)])]
        refine storedLeafHash_compute _ _ _ d _ ?_ ?_
        · rw [hbkP, if_neg (leafReadTile_path_ne_sth _ _)]
          rw [applyUploads_lastVal _ _ _ _ hupok]
          rw [hlv]
        · rw [hpart]
          refine tileValue (hashReaderFn l.edgeTiles st1.newHashes) _ _ _ d (by omega) (by omega) ?_ ?_ h32' ?_ i rfl (by omega)
          · rw [← hlastrec]
            exact hrdB
          · intro j hj
            exact hread _ (by omega) (by omega)
          · rw [hlen']
            omega

/-- Accepting a leaf into the pool does not touch the tree, the edge
tiles or the store. -/
theorem good_add (l : LogState) (bk : Backend) (lh : List Bytes) (e : logEntry)
    (hg : Good l bk lh) : Good (addLeafToPool l e).1 bk lh := by
  obtain ⟨h1, h2, h3, h4⟩ := hg
  exact ⟨h1, h2, h3, h4⟩

/-- Along any schedule of accepted leaves and sequencing rounds, the
published leaf hashes only ever grow by appending. -/
theorem good_run : ∀ (evs : List Event) (s : Sys) (lh : List Bytes),
    Good s.log s.backend lh →
    ∃ ext, Good (run s evs).log (run s evs).backend (lh ++ ext) := by
  intro evs
  induction evs with
  | nil =>
    intro s lh hg
    exact ⟨[], by rw [List.append_nil]; exact hg⟩
  | cons ev evs ih =>
    intro s lh hg
    cases ev with
    | add e =>
      exact ih _ lh (good_add _ _ _ _ hg)
    | seq ts upOk =>
      by_cases herr : (sequencePool s.log s.backend ts upOk).err = none
      · obtain ⟨ext2, hg2⟩ := ih (step s (.seq ts upOk)) _
          (good_seq_ok s.log s.backend lh ts upOk hg herr)
        refine ⟨s.log.currentPool.pendingLeaves.map
          (fun e => recordHash (e.merkleTreeLeaf ts)) ++ ext2, ?_⟩
        rw [← List.append_assoc]
        exact hg2
      · exact ih _ lh (good_seq_err s.log s.backend lh ts upOk hg herr)

/-- Claim C1 (append stability): consider a leaf accepted via
`addLeafToPool` as the `k`-th entry of a pool, and a successful
`sequencePool` round at timestamp `ts` that sequences this pool, so that
the leaf's future unblocks and yields index `i`.  The captured pool
records `ts` as the accept-round timestamp, and after any further
schedule of accepted leaves and sequencing rounds, every published tree
state has size greater than `i` and serves, at level-0 position `i` of
its tiled hash storage, exactly the RFC 6962 record hash
`SHA-256(0x00 || MerkleTreeLeaf(entry, ts))` — where `MerkleTreeLeaf`
itself starts `0x00 0x00` for version and leaf type — read back from the
published tiles via `tlog.HashFromTile` at `tlog.StoredHashIndex(0, i)`.
The hypothesis `Good` states the level-0 coherence of the starting
state, which holds for a freshly created or loaded log. -/
theorem C1_append_stability
    (s : Sys) (lh : List Bytes) (hg : Good s.log s.backend lh)
    (ts : Int) (upOk : TKey → Bool) (k i : Nat) (entry : logEntry)
    (hk : s.log.currentPool.pendingLeaves.get? k = some entry)
    (hok : (sequencePool s.log s.backend ts upOk).err = none)
    (hfut : futureValue (sequencePool s.log s.backend ts upOk).captured k = some i)
    (evs : List Event) :
    (sequencePool s.log s.backend ts upOk).captured.timestamp = ts ∧
    i < (run (step s (.seq ts upOk)) evs).log.tree.N ∧
    storedLeafHash (run (step s (.seq ts upOk)) evs).backend
      (run (step s (.seq ts upOk)) evs).log.tree.N i =
      some (recordHash (entry.merkleTreeLeaf ts)) := by
  obtain ⟨hsucc, _, _⟩ := sequencePool_facts s.log s.backend ts upOk
  obtain ⟨hcap, _, _⟩ := hsucc hok
  obtain ⟨hklt, hkentry⟩ := get?_some_getD _ _ _ dummyEntry hk
  have hN0 : s.log.tree.N = lh.length := hg.1
  have hfut' : i = lh.length + k := by
    rw [hcap] at hfut
    unfold futureValue at hfut
    rw [if_pos rfl] at hfut
    have : s.log.tree.N + k = i := by
      exact Option.some.inj hfut
    omega
  obtain ⟨ext, hg2⟩ := good_run evs (step s (.seq ts upOk)) _
    (good_seq_ok s.log s.backend lh ts upOk hg hok)
  obtain ⟨g1, g2, g3, g4⟩ := hg2
  have hNlen : (run (step s (.seq ts upOk)) evs).log.tree.N =
      ((lh ++ s.log.currentPool.pendingLeaves.map
        (fun e => recordHash (e.merkleTreeLeaf ts))) ++ ext).length := g1
  have hmaplen : (lh ++ s.log.currentPool.pendingLeaves.map
      (fun e => recordHash (e.merkleTreeLeaf ts))).length =
      lh.length + s.log.currentPool.pendingLeaves.length := by
    rw [List.length_append, List.length_map]
  refine ⟨by rw [hcap], ?_, ?_⟩
  · rw [hNlen, List.length_append, hmaplen]
    omega
  · rw [hNlen]
    rw [g4 i (by rw [List.length_append, hmaplen]; omega)]
    rw [List.getD_append _ _ _ _ (by rw [hmaplen]; omega)]
    rw [List.getD_append_right _ _ _ _ (by omega)]
    rw [getD_map_lt _ _ _ (by omega) dummyEntry]
    rw [show i - lh.length = k by omega]
    rw [hkentry]

set_option maxRecDepth 10000 in
theorem C1_append_stability_witness :
    (sequencePool c1Sys.log c1Sys.backend 1 allOk).captured.timestamp = 1 ∧
    0 < (run (step c1Sys (.seq 1 allOk)) []).log.tree.N ∧
    storedLeafHash (run (step c1Sys (.seq 1 allOk)) []).backend
      (run (step c1Sys (.seq 1 allOk)) []).log.tree.N 0 =
      some (recordHash (c6Entry.merkleTreeLeaf 1)) :=
  C1_append_stability c1Sys []
    ⟨rfl, fun h hm => absurd hm (List.not_mem_nil h), rfl,
      fun i hi => absurd hi (Nat.not_lt_zero i)⟩
    1 allOk 0 0 c6Entry rfl (by decide) (by decide) []

end Ctlog
